import Mathlib

/-!
Verification of the input command parser (`src/switcherPlus/inputParser.ts`).

Strings are modelled as `List Char` (the algorithm never interprets
characters beyond equality, so the embedding is alphabet generic; JS
code-unit indexing and Lean `Char` indexing coincide for every
construct the parser uses).  The scanner loop of `InputParser.parse`
is a while loop consuming at least one input position per iteration;
it is embedded as a fuel-based recursion with fuel equal to the length
of the remaining input, which is proved sufficient
(`scanLoopF_congr`) because every trigger stored in the command map is
nonempty.

The handler registry (`handlerRegistry.ts`) and the handlers
themselves are not part of the sources; their observable behaviour
(`getHandler`, `validateCommand`, `resetSourcedHandlers`) is modelled
from the spec where noted.
-/

/-- Character list standing for a JS string. -/
abbrev Str := List Char

/-- Operational modes of the switcher (`src/types`). -/
inductive Mode where
  | standard
  | editorList
  | symbolList
  | workspaceList
  | headingsList
  | commandList
  | relatedItemsList
  | bookmarksList
  | vaultList
  deriving DecidableEq, Repr

/-- Parser-facing part of a command definition (`commandDefinitions.ts`):
the trigger string (a nullable string in TS, hence `Option Str`), the
classification (the TS string union `'prefix' | 'sourced' | 'none'`,
kept as a string so the embedding mirrors the source literals), and the
implicit-source flag. -/
structure ParserCommand where
  getCommandStr : Option Str
  type : String
  useActiveEditorAsSource : Bool
  deriving DecidableEq, Repr

/-- Command definition: the mode the command activates plus its parser
configuration.  UI-only fields of the TS interface (handler class,
suggestion types) are never read by the parser and are omitted. -/
structure CommandDefinition where
  mode : Mode
  parserCommand : ParserCommand
  deriving DecidableEq, Repr

/-- Trigger string of a definition, with `null` treated as the empty
string (`cmdDef.parserCommand.getCommandStr() ?? ''`). -/
def cmdStrOf (d : CommandDefinition) : Str :=
  d.parserCommand.getCommandStr.getD []

/-- Entry of the first-character lookup map (`MappedCommand`). -/
structure MappedCommand where
  cmdDef : CommandDefinition
  cmdStr : Str
  deriving DecidableEq, Repr

/-- Raw scan occurrence (`FoundCommand`): a mapped command plus the index
of the match inside the clean output. -/
structure FoundCommand where
  cmdDef : CommandDefinition
  cmdStr : Str
  indexInCleanInput : Nat
  deriving DecidableEq, Repr

/-- Externally visible resolved command (`ResolvedCommand`). -/
structure ResolvedCommand where
  cmdDef : CommandDefinition
  cmdStr : Str
  filterText : Str
  indexInCleanInput : Nat
  deriving DecidableEq, Repr

/-- Result of `InputParser.parse` (`ParsedResult`). -/
structure ParsedResult where
  cleanInput : Str
  resolvedCommands : List ResolvedCommand
  deriving DecidableEq, Repr

/-- First-character lookup structure: insertion-ordered association list
from leading character to mapped commands, mirroring the JS `Map`. -/
abbrev CommandMap := List (Char × List MappedCommand)

/-- Append a mapped command to the bucket of character `c`, creating the
bucket if absent (JS `Map.get(...).push(...)` / `Map.set`). -/
def addToBuckets : CommandMap → Char → MappedCommand → CommandMap
  | [], c, mc => [(c, [mc])]
  | (c', l) :: rest, c, mc =>
    if c' = c then (c', l ++ [mc]) :: rest
    else (c', l) :: addToBuckets rest c mc

/-- First grouping pass of `buildCommandMap`: every definition with a
nonempty trigger string is appended to the bucket of its first
character. -/
def groupCommands : List CommandDefinition → CommandMap → CommandMap
  | [], bs => bs
  | d :: ds, bs =>
    match cmdStrOf d with
    | [] => groupCommands ds bs
    | c :: t => groupCommands ds (addToBuckets bs c ⟨d, c :: t⟩)

/-- Comparator used to sort each bucket: length descending
(`(a, b) => b.cmdStr.length - a.cmdStr.length`, a stable JS sort). -/
def cmdLenGe (a b : MappedCommand) : Prop :=
  b.cmdStr.length ≤ a.cmdStr.length

instance : DecidableRel cmdLenGe := fun a b =>
  inferInstanceAs (Decidable (b.cmdStr.length ≤ a.cmdStr.length))

instance : IsTotal MappedCommand cmdLenGe :=
  ⟨fun a b => Nat.le_total b.cmdStr.length a.cmdStr.length⟩

instance : IsTrans MappedCommand cmdLenGe :=
  ⟨fun _ _ _ h1 h2 => Nat.le_trans h2 h1⟩

/-- Second pass of `buildCommandMap`: sort every bucket longest first.
`List.insertionSort` is a stable sort, like the JS `Array.sort`. -/
def sortBuckets (bs : CommandMap) : CommandMap :=
  bs.map (fun b => (b.1, List.insertionSort cmdLenGe b.2))

/-- Lookup map built by `InputParser.buildCommandMap`. -/
def buildCommandMap (defs : List CommandDefinition) : CommandMap :=
  sortBuckets (groupCommands defs [])

/-- JS `Map.get` on the bucket list. -/
def lookupBuckets : CommandMap → Char → Option (List MappedCommand)
  | [], _ => none
  | (c', l) :: rest, c => if c' = c then some l else lookupBuckets rest c

/-- Embedding of `InputParser.findCommandMatch` at a given position: the
argument is the suffix of the input starting at that position.  An
out-of-range position gives the empty suffix and, as in the source
(`inputText[index]` is `undefined`), no match. -/
def findCommandMatch (m : CommandMap) (s : Str) : Option MappedCommand :=
  match s with
  | [] => none
  | c :: _ =>
    match lookupBuckets m c with
    | none => none
    | some bucket => bucket.find? (fun mc => mc.cmdStr.isPrefixOf s)

/-- Well-formedness of a command map: every trigger reachable by lookup
is nonempty.  `buildCommandMap` only ever stores nonempty triggers. -/
def MapWF (m : CommandMap) : Prop :=
  ∀ c bucket, lookupBuckets m c = some bucket → ∀ mc ∈ bucket, mc.cmdStr ≠ []

/-- Scanner loop of `InputParser.parse`, with explicit fuel (one unit per
while-loop iteration; fuel `remaining.length` is sufficient because
every stored trigger is nonempty, see `scanFrom_eq`).  At each step:
an escape marker followed by a trigger is consumed with the trigger
copied literally; otherwise a trigger match is recorded as an
occurrence at the current clean length; otherwise one character is
copied. -/
def scanLoopF (m : CommandMap) (esc : Str) :
    Nat → Str → Str → List FoundCommand → Str × List FoundCommand
  | _, [], clean, found => (clean, found)
  | 0, _ :: _, clean, found => (clean, found)
  | fuel + 1, c :: rest, clean, found =>
    match
      (if esc.isPrefixOf (c :: rest) then
        findCommandMatch m ((c :: rest).drop esc.length)
      else none) with
    | some mc =>
      scanLoopF m esc fuel ((c :: rest).drop (esc.length + mc.cmdStr.length))
        (clean ++ mc.cmdStr) found
    | none =>
      match findCommandMatch m (c :: rest) with
      | some mc =>
        scanLoopF m esc fuel ((c :: rest).drop mc.cmdStr.length)
          (clean ++ mc.cmdStr) (found ++ [⟨mc.cmdDef, mc.cmdStr, clean.length⟩])
      | none => scanLoopF m esc fuel rest (clean ++ [c]) found

/-- Scanner loop started with canonical fuel. -/
def scanFrom (m : CommandMap) (esc : Str) (remaining clean : Str)
    (found : List FoundCommand) : Str × List FoundCommand :=
  scanLoopF m esc remaining.length remaining clean found

/-- Single scanning pass over the whole input (the while loop of
`InputParser.parse` before precedence resolution). -/
def scan (m : CommandMap) (esc : Str) (input : Str) : Str × List FoundCommand :=
  scanFrom m esc input [] []

/-- Comparator used to sort sourced commands ascending by position
(`(a, b) => a.indexInCleanInput - b.indexInCleanInput`, stable). -/
def idxLe (a b : ResolvedCommand) : Prop :=
  a.indexInCleanInput ≤ b.indexInCleanInput

instance : DecidableRel idxLe := fun a b =>
  inferInstanceAs (Decidable (a.indexInCleanInput ≤ b.indexInCleanInput))

instance : IsTotal ResolvedCommand idxLe :=
  ⟨fun a b => Nat.le_total a.indexInCleanInput b.indexInCleanInput⟩

instance : IsTrans ResolvedCommand idxLe :=
  ⟨fun _ _ _ h1 h2 => Nat.le_trans h1 h2⟩

/-- Resolved command built from a raw occurrence: the filter text is the
substring of the clean input from right after the trigger through the
end (`cleanInput.substring(startIndex)`). -/
def toResolved (clean : Str) (fc : FoundCommand) : ResolvedCommand :=
  { cmdDef := fc.cmdDef
    cmdStr := fc.cmdStr
    filterText := clean.drop (fc.indexInCleanInput + fc.cmdStr.length)
    indexInCleanInput := fc.indexInCleanInput }

/-- Classification loop of `resolveCommandPrecedence`: accumulate sourced
occurrences in order and capture the first prefix-classified occurrence
sitting at clean index 0. -/
def resolveLoop (clean : Str) :
    List FoundCommand → List ResolvedCommand → Option ResolvedCommand →
    List ResolvedCommand × Option ResolvedCommand
  | [], sourced, pfx => (sourced, pfx)
  | fc :: rest, sourced, pfx =>
    let rc := toResolved clean fc
    if fc.cmdDef.parserCommand.type = "prefix" ∧ fc.indexInCleanInput = 0 ∧
        pfx = none then
      resolveLoop clean rest sourced (some rc)
    else if fc.cmdDef.parserCommand.type = "sourced" then
      resolveLoop clean rest (sourced ++ [rc]) pfx
    else
      resolveLoop clean rest sourced pfx

/-- Embedding of `InputParser.resolveCommandPrecedence`: classify, sort
the sourced occurrences ascending by index (stable), and append the
prefix candidate, if any, last. -/
def resolveCommandPrecedence (found : List FoundCommand) (clean : Str) :
    List ResolvedCommand :=
  let sp := resolveLoop clean found [] none
  List.insertionSort idxLe sp.1 ++ sp.2.toList

/-- Suggestion object as seen by the parser: opaque, only passed through
to handlers. -/
structure AnySuggestion where
  val : Nat
  deriving DecidableEq, Repr

/-- Workspace leaf as seen by the parser: opaque, only passed through to
handlers. -/
structure WorkspaceLeaf where
  val : Nat
  deriving DecidableEq, Repr

/-- Session options staged onto the input state before validation. -/
structure SessionOpts where
  useActiveEditorAsSource : Bool
  deriving DecidableEq, Repr

/-- Mutable input session state (`InputInfo`). -/
structure InputInfo where
  inputText : Str
  cleanInput : Str
  mode : Mode
  sessionOpts : SessionOpts
  deriving DecidableEq, Repr

/-- Handler validation outcome (`isValidated` plus fields the parser
never reads). -/
structure ValidationResult where
  isValidated : Bool
  deriving DecidableEq, Repr

/-- Modelled from the spec: a content handler, absent from the sources,
reduced to its `validateCommand` capability.  The result is an
`Option` because a (mis-behaved) implementation may return
null/undefined; the second component is the session state as mutated
by the handler.  `id` identifies the handler for sourced-context
bookkeeping. -/
structure Handler where
  id : Nat
  validateCommand : InputInfo → Nat → Str → Option AnySuggestion →
    Option WorkspaceLeaf → Option ValidationResult × InputInfo

/-- Modelled from the spec: the handler registry (`handlerRegistry.ts`
is not among the sources), reduced to mode-keyed lookup. -/
structure HandlerRegistry where
  getHandler : Mode → Option Handler

/-- Session world: the input state plus, modelled from the spec, the ids
of sourced handlers currently holding context. -/
structure World where
  inputInfo : InputInfo
  sourcedContexts : List Nat

/-- Modelled from the spec: `HandlerRegistry.resetSourcedHandlers`
clears the held context of every sourced handler whose id is not in
the exclusion list. -/
def resetSourcedHandlers (exclude : List Nat) (w : World) : World :=
  { w with sourcedContexts :=
      w.sourcedContexts.filter (fun i => exclude.contains i) }

/-- Parser object: lookup map built from the command definitions at
construction time, the configured escape marker, and the registry. -/
structure InputParser where
  commandMap : CommandMap
  escapeCmdChar : Str
  handlerRegistry : HandlerRegistry

/-- Constructor of `InputParser`. -/
def mkInputParser (handlerRegistry : HandlerRegistry) (escapeCmdChar : Str)
    (defs : List CommandDefinition) : InputParser :=
  ⟨buildCommandMap defs, escapeCmdChar, handlerRegistry⟩

/-- Embedding of `InputParser.parse`: one scanning pass, then precedence
resolution over the scan results. -/
def InputParser.parse (p : InputParser) (inputText : Str) : ParsedResult :=
  let s := scan p.commandMap p.escapeCmdChar inputText
  { cleanInput := s.1, resolvedCommands := resolveCommandPrecedence s.2 s.1 }

/-- Embedding of `InputParser.findFirstValidCommand`.  A missing handler
is skipped; before validation the implicit-source flag is staged onto
the session; a null validation result makes the member access
`parsedCmd.isValidated` fault, modelled as an overall `none`; the
first validated command resets all other sourced handlers (only the
winning handler is spared when the winning command is sourced) and
stops the walk. -/
def findFirstValidCommand (reg : HandlerRegistry) :
    List ResolvedCommand → World → Option AnySuggestion →
    Option WorkspaceLeaf → Option (Bool × World)
  | [], w, _, _ => some (false, w)
  | rc :: rest, w, s, l =>
    match reg.getHandler rc.cmdDef.mode with
    | none => findFirstValidCommand reg rest w s l
    | some handler =>
      let info1 := { w.inputInfo with
        sessionOpts := { w.inputInfo.sessionOpts with
          useActiveEditorAsSource :=
            rc.cmdDef.parserCommand.useActiveEditorAsSource } }
      match handler.validateCommand info1 rc.indexInCleanInput rc.filterText s l with
      | (none, _) => none
      | (some parsedCmd, info2) =>
        let w2 := { w with inputInfo := info2 }
        if parsedCmd.isValidated then
          some (true, resetSourcedHandlers
            (if rc.cmdDef.parserCommand.type = "sourced" then [handler.id] else [])
            w2)
        else
          findFirstValidCommand reg rest w2 s l

/-- Embedding of `InputParser.parseInputForMode`: parse the raw text,
store the clean input, walk the queue; if nothing validated, reset all
sourced handlers and fall back to Standard mode.  A fault raised
during the walk propagates (`none`). -/
def InputParser.parseInputForMode (p : InputParser) (w : World)
    (activeSugg : Option AnySuggestion) (activeLeaf : Option WorkspaceLeaf) :
    Option World :=
  let pr := p.parse w.inputInfo.inputText
  let w1 := { w with inputInfo := { w.inputInfo with cleanInput := pr.cleanInput } }
  match findFirstValidCommand p.handlerRegistry pr.resolvedCommands w1
      activeSugg activeLeaf with
  | none => none
  | some (true, w2) => some w2
  | some (false, w2) =>
    some (resetSourcedHandlers []
      { w2 with inputInfo := { w2.inputInfo with mode := Mode.standard } })

/-- Specification-side description of the bucket contents for character
`c`: the definitions whose trigger starts with `c`, in definition
order, paired with their triggers. -/
def pairsFor (defs : List CommandDefinition) (c : Char) : List MappedCommand :=
  defs.filterMap (fun d =>
    match cmdStrOf d with
    | [] => none
    | c' :: t => if c' = c then some ⟨d, c' :: t⟩ else none)

/-- Occurrence classified as sourced. -/
def isSourcedB (fc : FoundCommand) : Bool :=
  fc.cmdDef.parserCommand.type == "sourced"

/-- Occurrence that is a prefix candidate: prefix-classified and sitting
at clean index 0. -/
def isPfxAtZeroB (fc : FoundCommand) : Bool :=
  fc.cmdDef.parserCommand.type == "prefix" && fc.indexInCleanInput == 0

/-- Shift of an occurrence index, used to relate a scan started with a
nonempty clean accumulator to the scan started from scratch. -/
def shiftFound (n : Nat) (fc : FoundCommand) : FoundCommand :=
  { fc with indexInCleanInput := n + fc.indexInCleanInput }

/-- Decidable check that at no position of `input` the escape marker is
immediately followed by a trigger match (hence scanning strips
nothing). -/
def noEscapePairs (m : CommandMap) (esc : Str) (input : Str) : Bool :=
  (List.range (input.length + 1)).all (fun j =>
    !(esc.isPrefixOf (input.drop j) && (findCommandMatch m (input.drop (j + esc.length))).isSome))

/-- Handler set conforming to the TS interface: `validateCommand` never
returns null/undefined. -/
def HandlersTotal (reg : HandlerRegistry) : Prop :=
  ∀ md h, reg.getHandler md = some h →
    ∀ info i ft s l, (h.validateCommand info i ft s l).1.isSome

/-- Modelled from the spec: handler contract for mode resolution — a
handler registered under mode `md` that validates a command leaves the
session's active mode set to `md` (the spec's "the session's active
mode is set to that command's mode"; in the implementation this
mutation is performed inside the handlers, which are outside the
sources). -/
def ModeContract (reg : HandlerRegistry) : Prop :=
  ∀ md h, reg.getHandler md = some h →
    ∀ info i ft s l r info2, h.validateCommand info i ft s l = (some r, info2) →
      r.isValidated = true → info2.mode = md

/-- Session state with the clean input stored, as `parseInputForMode`
does before walking the queue. -/
def stageClean (p : InputParser) (w : World) : World :=
  { w with inputInfo :=
      { w.inputInfo with cleanInput := (p.parse w.inputInfo.inputText).cleanInput } }

/-- Session state as staged immediately before invoking a handler on a
resolved command (the implicit-source flag copied from the command
definition). -/
def stageOpts (rc : ResolvedCommand) (info : InputInfo) : InputInfo :=
  { info with sessionOpts :=
      { info.sessionOpts with
        useActiveEditorAsSource := rc.cmdDef.parserCommand.useActiveEditorAsSource } }

/-- Full conclusion of the mode-resolution walk, used by the C1 theorem
and instantiated by its witness: the fallback case resets everything
and picks Standard, the success case returns the winner's world with
the winner's mode and no other sourced context, the walk never gets
stuck when handlers are total, and entries after a validated one are
never evaluated. -/
def WalkConclusion (p : InputParser) (w : World) (s : Option AnySuggestion)
    (l : Option WorkspaceLeaf) : Prop :=
  (∀ w2, findFirstValidCommand p.handlerRegistry
      (p.parse w.inputInfo.inputText).resolvedCommands (stageClean p w) s l =
        some (false, w2) →
    ∃ w', p.parseInputForMode w s l = some w' ∧
      w'.inputInfo.mode = Mode.standard ∧ w'.sourcedContexts = []) ∧
  (∀ w2, findFirstValidCommand p.handlerRegistry
      (p.parse w.inputInfo.inputText).resolvedCommands (stageClean p w) s l =
        some (true, w2) →
    p.parseInputForMode w s l = some w2 ∧
      ∃ rc ∈ (p.parse w.inputInfo.inputText).resolvedCommands,
        ∃ h, p.handlerRegistry.getHandler rc.cmdDef.mode = some h ∧
          w2.inputInfo.mode = rc.cmdDef.mode ∧
          ∀ x ∈ w2.sourcedContexts, x = h.id) ∧
  (findFirstValidCommand p.handlerRegistry
      (p.parse w.inputInfo.inputText).resolvedCommands (stageClean p w) s l).isSome ∧
  (∀ q post w1 w2,
    findFirstValidCommand p.handlerRegistry q w1 s l = some (true, w2) →
    findFirstValidCommand p.handlerRegistry (q ++ post) w1 s l = some (true, w2))

/-- String literal helper for concrete examples. -/
def strLit (s : String) : Str := s.toList

/-- Concrete sourced command definition used in examples. -/
def mkSourced (md : Mode) (t : String) : CommandDefinition :=
  ⟨md, ⟨some (strLit t), "sourced", false⟩⟩

/-- Concrete prefix command definition used in examples. -/
def mkPfx (md : Mode) (t : String) : CommandDefinition :=
  ⟨md, ⟨some (strLit t), "prefix", false⟩⟩

/-- Concrete none-classified command definition used in examples. -/
def mkNone (md : Mode) (t : String) : CommandDefinition :=
  ⟨md, ⟨some (strLit t), "none", false⟩⟩

/-- Registry with no handlers, for purely syntactic examples. -/
def emptyRegistry : HandlerRegistry := ⟨fun _ => none⟩

/-- Parser with sourced trigger `@` and escape marker `!`. -/
def pEsc : InputParser :=
  mkInputParser emptyRegistry (strLit "!") [mkSourced Mode.symbolList "@"]

/-- Parser with overlapping sourced triggers `a` and `aa`. -/
def pOverlap : InputParser :=
  mkInputParser emptyRegistry (strLit "!")
    [mkSourced Mode.symbolList "a", mkSourced Mode.editorList "aa"]

/-- Parser where a none-classified command `ab` overlaps the sourced
trigger `b`. -/
def pShadow : InputParser :=
  mkInputParser emptyRegistry (strLit "!")
    [mkNone Mode.standard "ab", mkSourced Mode.symbolList "b"]

/-- Parser whose sourced trigger coincides with the escape marker. -/
def pBang : InputParser :=
  mkInputParser emptyRegistry (strLit "!") [mkSourced Mode.symbolList "!"]

/-- Handler returning a null validation outcome. -/
def nullHandler : Handler := ⟨0, fun info _ _ _ _ => (none, info)⟩

/-- Registry resolving every mode to the null-returning handler. -/
def nullRegistry : HandlerRegistry := ⟨fun _ => some nullHandler⟩

/-- Parser over the null-returning registry. -/
def pNull : InputParser :=
  mkInputParser nullRegistry (strLit "!") [mkSourced Mode.symbolList "@"]

/-- Handler that always validates and records the registered mode; used
to discharge the C1 hypotheses concretely. -/
def okHandler (md : Mode) : Handler :=
  ⟨7, fun info _ _ _ _ => (some ⟨true⟩, { info with mode := md })⟩

/-- Registry resolving every mode to its always-validating handler. -/
def okRegistry : HandlerRegistry := ⟨fun md => some (okHandler md)⟩

/-- Parser over the always-validating registry. -/
def pOk : InputParser :=
  mkInputParser okRegistry (strLit "!") [mkSourced Mode.symbolList "@"]

/-- Initial session world over a given raw input. -/
def mkWorld (input : String) : World :=
  ⟨⟨strLit input, [], Mode.standard, ⟨false⟩⟩, [3, 7, 9]⟩


/-- Lookup after a bucket append: the targeted character gains the new
entry at the end of its bucket, every other character is untouched. -/
theorem lookupBuckets_addToBuckets (bs : CommandMap) (c c' : Char)
    (mc : MappedCommand) :
    lookupBuckets (addToBuckets bs c mc) c' =
      if c' = c then some (((lookupBuckets bs c).getD []) ++ [mc])
      else lookupBuckets bs c' := by
  induction bs with
  | nil =>
    by_cases h : c' = c
    · subst h; simp [addToBuckets, lookupBuckets]
    · have h2 : ¬ c = c' := fun hh => h hh.symm
      simp [addToBuckets, lookupBuckets, h, h2]
  | cons b rest ih =>
    obtain ⟨k, l⟩ := b
    by_cases hk : k = c
    · subst hk
      by_cases h : c' = k
      · subst h; simp [addToBuckets, lookupBuckets]
      · have h2 : ¬ k = c' := fun hh => h hh.symm
        simp [addToBuckets, lookupBuckets, h, h2]
    · by_cases h2 : k = c'
      · subst h2
        have h3 : ¬ k = c := hk
        simp [addToBuckets, lookupBuckets, h3, fun hh => h3 (hh : k = c)]
      · simp [addToBuckets, lookupBuckets, hk, h2, ih]

/-- Unfolding of `pairsFor` over a leading definition. -/
theorem pairsFor_cons (d : CommandDefinition) (ds : List CommandDefinition)
    (c : Char) :
    pairsFor (d :: ds) c =
      (match cmdStrOf d with
        | [] => pairsFor ds c
        | c' :: t =>
          if c' = c then ⟨d, c' :: t⟩ :: pairsFor ds c else pairsFor ds c) := by
  rcases h : cmdStrOf d with _ | ⟨c', t⟩
  · simp [pairsFor, List.filterMap_cons, h]
  · by_cases hc : c' = c <;> simp [pairsFor, List.filterMap_cons, h, hc]

/-- Lookup through the grouping pass: the bucket of `c` is the original
bucket extended with all pairs of `ds` whose trigger starts with
`c`, in definition order. -/
theorem lookupBuckets_groupCommands (ds : List CommandDefinition) :
    ∀ (bs : CommandMap) (c : Char),
      lookupBuckets (groupCommands ds bs) c =
        if pairsFor ds c = [] then lookupBuckets bs c
        else some (((lookupBuckets bs c).getD []) ++ pairsFor ds c) := by
  induction ds with
  | nil => intro bs c; simp [groupCommands, pairsFor]
  | cons d ds ih =>
    intro bs c
    rcases h : cmdStrOf d with _ | ⟨c', t⟩
    · rw [show groupCommands (d :: ds) bs = groupCommands ds bs by
        simp [groupCommands, h]]
      rw [ih, pairsFor_cons, h]
    · rw [show groupCommands (d :: ds) bs =
          groupCommands ds (addToBuckets bs c' ⟨d, c' :: t⟩) by
        simp [groupCommands, h]]
      rw [ih, pairsFor_cons, h]
      by_cases hc : c' = c
      · subst hc
        rw [lookupBuckets_addToBuckets]
        rcases hp : pairsFor ds c' with _ | ⟨q, qs⟩ <;>
          simp [hp, List.append_assoc]
      · rw [lookupBuckets_addToBuckets]
        have h2 : ¬ c = c' := fun hh => hc hh.symm
        simp [hc, h2]

/-- Lookup through the sorting pass. -/
theorem lookupBuckets_sortBuckets (bs : CommandMap) (c : Char) :
    lookupBuckets (sortBuckets bs) c =
      (lookupBuckets bs c).map (List.insertionSort cmdLenGe) := by
  induction bs with
  | nil => simp [sortBuckets, lookupBuckets]
  | cons b rest ih =>
    obtain ⟨k, l⟩ := b
    rw [show sortBuckets ((k, l) :: rest) =
        (k, List.insertionSort cmdLenGe l) :: sortBuckets rest from rfl]
    by_cases hk : k = c
    · subst hk; simp [lookupBuckets]
    · simp [lookupBuckets, hk, ih]

/-- Characterization of the built lookup map: the bucket of `c` holds
exactly the definitions whose trigger starts with `c`, in definition
order, sorted longest first by a stable sort. -/
theorem lookupBuckets_build (defs : List CommandDefinition) (c : Char) :
    lookupBuckets (buildCommandMap defs) c =
      if pairsFor defs c = [] then none
      else some (List.insertionSort cmdLenGe (pairsFor defs c)) := by
  rw [buildCommandMap, lookupBuckets_sortBuckets, lookupBuckets_groupCommands]
  rcases hp : pairsFor defs c with _ | ⟨q, qs⟩ <;> simp [lookupBuckets]

/-- Membership in `pairsFor`: exactly the definitions with a nonempty
trigger starting with `c`, paired with that trigger. -/
theorem mem_pairsFor {defs : List CommandDefinition} {c : Char}
    {mc : MappedCommand} :
    mc ∈ pairsFor defs c ↔
      ∃ d ∈ defs, ∃ t, cmdStrOf d = c :: t ∧ mc = ⟨d, c :: t⟩ := by
  simp only [pairsFor, List.mem_filterMap]
  constructor
  · rintro ⟨d, hd, hf⟩
    rcases h : cmdStrOf d with _ | ⟨c', t⟩ <;> rw [h] at hf
    · cases hf
    · dsimp only at hf
      by_cases hc : c' = c
      · subst hc
        rw [if_pos rfl] at hf
        cases hf
        exact ⟨d, hd, t, h, rfl⟩
      · rw [if_neg hc] at hf; cases hf
  · rintro ⟨d, hd, t, hstr, rfl⟩
    exact ⟨d, hd, by rw [hstr]; simp⟩

/-- The built map is well formed: every stored trigger is nonempty. -/
theorem mapWF_build (defs : List CommandDefinition) :
    MapWF (buildCommandMap defs) := by
  intro c bucket h mc hmc
  rw [lookupBuckets_build] at h
  split at h
  · cases h
  · cases h
    rcases mem_pairsFor.mp ((List.mem_insertionSort cmdLenGe).mp hmc) with
      ⟨d, _, t, _, rfl⟩
    simp

/-- Every bucket of the built map is sorted longest first. -/
theorem build_bucket_sorted {defs : List CommandDefinition} {c : Char}
    {bucket : List MappedCommand}
    (h : lookupBuckets (buildCommandMap defs) c = some bucket) :
    List.Sorted cmdLenGe bucket := by
  rw [lookupBuckets_build] at h
  split at h
  · cases h
  · cases h
    exact List.sorted_insertionSort cmdLenGe _

/-- Provenance of bucket entries in the built map. -/
theorem mem_build_bucket {defs : List CommandDefinition} {c : Char}
    {bucket : List MappedCommand} {mc : MappedCommand}
    (h : lookupBuckets (buildCommandMap defs) c = some bucket)
    (hmc : mc ∈ bucket) :
    ∃ d ∈ defs, ∃ t, cmdStrOf d = c :: t ∧ mc = ⟨d, c :: t⟩ := by
  rw [lookupBuckets_build] at h
  split at h
  · cases h
  · cases h
    exact mem_pairsFor.mp ((List.mem_insertionSort cmdLenGe).mp hmc)

/-- Completeness: every definition with a nonempty trigger is reachable
in the bucket of its first character. -/
theorem build_bucket_complete {defs : List CommandDefinition}
    {d : CommandDefinition} {c : Char} {t : Str}
    (hd : d ∈ defs) (hstr : cmdStrOf d = c :: t) :
    ∃ bucket, lookupBuckets (buildCommandMap defs) c = some bucket ∧
      (⟨d, c :: t⟩ : MappedCommand) ∈ bucket := by
  have hmem : (⟨d, c :: t⟩ : MappedCommand) ∈ pairsFor defs c :=
    mem_pairsFor.mpr ⟨d, hd, t, hstr, rfl⟩
  have hne : pairsFor defs c ≠ [] := by
    intro hh; rw [hh] at hmem; cases hmem
  refine ⟨List.insertionSort cmdLenGe (pairsFor defs c), ?_, ?_⟩
  · rw [lookupBuckets_build, if_neg hne]
  · exact (List.mem_insertionSort cmdLenGe).mpr hmem

/-- A match returned by `findCommandMatch` is a literal prefix of the
input at the probed position. -/
theorem findCommandMatch_isPrefixOf {m : CommandMap} {s : Str}
    {mc : MappedCommand} (h : findCommandMatch m s = some mc) :
    mc.cmdStr.isPrefixOf s = true := by
  rcases s with _ | ⟨c, rest⟩
  · simp [findCommandMatch] at h
  · simp only [findCommandMatch] at h
    rcases hl : lookupBuckets m c with _ | bucket <;> rw [hl] at h
    · cases h
    · dsimp only at h
      simpa using List.find?_some h

/-- Prefix form of `findCommandMatch_isPrefixOf`. -/
theorem findCommandMatch_prefix {m : CommandMap} {s : Str}
    {mc : MappedCommand} (h : findCommandMatch m s = some mc) :
    mc.cmdStr <+: s :=
  List.isPrefixOf_iff_prefix.mp (findCommandMatch_isPrefixOf h)

/-- Over a well-formed map, every match has a nonempty trigger. -/
theorem findCommandMatch_nonempty {m : CommandMap} {s : Str}
    {mc : MappedCommand} (hwf : MapWF m)
    (h : findCommandMatch m s = some mc) : mc.cmdStr ≠ [] := by
  rcases s with _ | ⟨c, rest⟩
  · simp [findCommandMatch] at h
  · simp only [findCommandMatch] at h
    rcases hl : lookupBuckets m c with _ | bucket <;> rw [hl] at h
    · cases h
    · dsimp only at h
      exact hwf c bucket hl mc (List.mem_of_find?_eq_some h)

/-- Over a built map, every match originates from a definition of the
configuration, carrying that definition's trigger. -/
theorem findCommandMatch_build_src {defs : List CommandDefinition} {s : Str}
    {mc : MappedCommand}
    (h : findCommandMatch (buildCommandMap defs) s = some mc) :
    ∃ d ∈ defs, mc = ⟨d, cmdStrOf d⟩ ∧ cmdStrOf d ≠ [] := by
  rcases s with _ | ⟨c, rest⟩
  · simp [findCommandMatch] at h
  · simp only [findCommandMatch] at h
    rcases hl : lookupBuckets (buildCommandMap defs) c with _ | bucket <;>
      rw [hl] at h
    · cases h
    · dsimp only at h
      rcases mem_build_bucket hl (List.mem_of_find?_eq_some h) with
        ⟨d, hd, t, hstr, rfl⟩
      exact ⟨d, hd, by rw [hstr], by rw [hstr]; simp⟩

/-- The scanner loop is the identity on exhausted input, for any fuel. -/
theorem scanLoopF_nil (m : CommandMap) (esc : Str) (f : Nat) (clean : Str)
    (found : List FoundCommand) :
    scanLoopF m esc f [] clean found = (clean, found) := by
  cases f <;> rfl

/-- One unfolding step of the scanner loop. -/
theorem scanLoopF_succ (m : CommandMap) (esc : Str) (fuel : Nat) (c : Char)
    (rest clean : Str) (found : List FoundCommand) :
    scanLoopF m esc (fuel + 1) (c :: rest) clean found =
      (match
        (if esc.isPrefixOf (c :: rest) then
          findCommandMatch m ((c :: rest).drop esc.length)
        else none) with
      | some mc =>
        scanLoopF m esc fuel ((c :: rest).drop (esc.length + mc.cmdStr.length))
          (clean ++ mc.cmdStr) found
      | none =>
        match findCommandMatch m (c :: rest) with
        | some mc =>
          scanLoopF m esc fuel ((c :: rest).drop mc.cmdStr.length)
            (clean ++ mc.cmdStr)
            (found ++ [⟨mc.cmdDef, mc.cmdStr, clean.length⟩])
        | none => scanLoopF m esc fuel rest (clean ++ [c]) found) := rfl

/-- Fuel irrelevance: over a well-formed map any fuel at least the length
of the remaining input yields the same result, because every loop
iteration consumes at least one input position. -/
theorem scanLoopF_congr {m : CommandMap} {esc : Str} (hwf : MapWF m) :
    ∀ (f1 f2 : Nat) (r clean : Str) (found : List FoundCommand),
      r.length ≤ f1 → r.length ≤ f2 →
      scanLoopF m esc f1 r clean found = scanLoopF m esc f2 r clean found := by
  intro f1
  induction f1 with
  | zero =>
    intro f2 r clean found h1 h2
    have : r = [] := List.eq_nil_of_length_eq_zero (Nat.le_zero.mp h1)
    subst this
    rw [scanLoopF_nil, scanLoopF_nil]
  | succ g ih =>
    intro f2 r clean found h1 h2
    rcases r with _ | ⟨c, rest⟩
    · rw [scanLoopF_nil, scanLoopF_nil]
    · rcases f2 with _ | f2'
      · simp at h2
      rw [scanLoopF_succ, scanLoopF_succ]
      rcases hes : (if esc.isPrefixOf (c :: rest) then
          findCommandMatch m ((c :: rest).drop esc.length)
        else none) with _ | mc
      · rcases hfm : findCommandMatch m (c :: rest) with _ | mc
        · exact ih f2' rest _ _ (by simpa using h1) (by simpa using h2)
        · have hne : mc.cmdStr ≠ [] := findCommandMatch_nonempty hwf hfm
          have hk : 1 ≤ mc.cmdStr.length :=
            Nat.one_le_iff_ne_zero.mpr (by simpa [List.length_eq_zero] using hne)
          apply ih <;>
            (rw [List.length_drop]; simp only [List.length_cons] at *; omega)
      · have hm : findCommandMatch m ((c :: rest).drop esc.length) = some mc := by
          by_cases hp : esc.isPrefixOf (c :: rest)
          · rwa [if_pos hp] at hes
          · rw [if_neg hp] at hes; cases hes
        have hne : mc.cmdStr ≠ [] := findCommandMatch_nonempty hwf hm
        have hk : 1 ≤ mc.cmdStr.length :=
          Nat.one_le_iff_ne_zero.mpr (by simpa [List.length_eq_zero] using hne)
        apply ih <;>
          (rw [List.length_drop]; simp only [List.length_cons] at *; omega)

/-- Scanning exhausted input yields the accumulators unchanged. -/
theorem scanFrom_nil (m : CommandMap) (esc clean : Str)
    (found : List FoundCommand) :
    scanFrom m esc [] clean found = (clean, found) := rfl

/-- Escaped-trigger step of the scan (case 1 of the source loop): the
marker is dropped, the trigger is copied literally, no occurrence is
recorded, and the cursor advances past marker plus trigger. -/
theorem scanFrom_esc {m : CommandMap} {esc r : Str} {mc : MappedCommand}
    (hwf : MapWF m) (hpre : esc.isPrefixOf r = true)
    (hm : findCommandMatch m (r.drop esc.length) = some mc)
    (clean : Str) (found : List FoundCommand) :
    scanFrom m esc r clean found =
      scanFrom m esc (r.drop (esc.length + mc.cmdStr.length))
        (clean ++ mc.cmdStr) found := by
  rcases r with _ | ⟨c, rest⟩
  · simp [findCommandMatch] at hm
  · have hscrut : (if esc.isPrefixOf (c :: rest) then
        findCommandMatch m ((c :: rest).drop esc.length)
      else none) = some mc := by rw [if_pos hpre]; exact hm
    show scanLoopF m esc (rest.length + 1) (c :: rest) clean found = _
    rw [scanLoopF_succ, hscrut]
    have hne : mc.cmdStr ≠ [] := findCommandMatch_nonempty hwf hm
    have hk : 1 ≤ mc.cmdStr.length :=
      Nat.one_le_iff_ne_zero.mpr (by simpa [List.length_eq_zero] using hne)
    exact scanLoopF_congr hwf _ _ _ _ _
      (by rw [List.length_drop]; simp only [List.length_cons]; omega)
      (Nat.le_refl _)

/-- Trigger-occurrence step of the scan (case 2 of the source loop): the
trigger is copied, an occurrence is recorded at the current clean
length, and the cursor advances past the trigger. -/
theorem scanFrom_cmd {m : CommandMap} {esc r : Str} {mc : MappedCommand}
    (hwf : MapWF m)
    (hnesc : (if esc.isPrefixOf r then findCommandMatch m (r.drop esc.length)
      else none) = none)
    (hm : findCommandMatch m r = some mc)
    (clean : Str) (found : List FoundCommand) :
    scanFrom m esc r clean found =
      scanFrom m esc (r.drop mc.cmdStr.length) (clean ++ mc.cmdStr)
        (found ++ [⟨mc.cmdDef, mc.cmdStr, clean.length⟩]) := by
  rcases r with _ | ⟨c, rest⟩
  · simp [findCommandMatch] at hm
  · show scanLoopF m esc (rest.length + 1) (c :: rest) clean found = _
    rw [scanLoopF_succ, hnesc, hm]
    have hne : mc.cmdStr ≠ [] := findCommandMatch_nonempty hwf hm
    have hk : 1 ≤ mc.cmdStr.length :=
      Nat.one_le_iff_ne_zero.mpr (by simpa [List.length_eq_zero] using hne)
    exact scanLoopF_congr hwf _ _ _ _ _
      (by rw [List.length_drop]; simp only [List.length_cons]; omega)
      (Nat.le_refl _)

/-- Literal-character step of the scan (case 3 of the source loop). -/
theorem scanFrom_lit {m : CommandMap} {esc : Str} {c : Char} {rest : Str}
    (hnesc : (if esc.isPrefixOf (c :: rest) then
        findCommandMatch m ((c :: rest).drop esc.length)
      else none) = none)
    (hm : findCommandMatch m (c :: rest) = none)
    (clean : Str) (found : List FoundCommand) :
    scanFrom m esc (c :: rest) clean found =
      scanFrom m esc rest (clean ++ [c]) found := by
  show scanLoopF m esc (rest.length + 1) (c :: rest) clean found = _
  rw [scanLoopF_succ, hnesc, hm]
  rfl

/-- Index shifts compose additively. -/
theorem shiftFound_shiftFound (a b : Nat) (fc : FoundCommand) :
    shiftFound a (shiftFound b fc) = shiftFound (a + b) fc := by
  simp [shiftFound, Nat.add_assoc]

/-- Clean output of the scan: the accumulator is a prefix, the rest only
depends on the remaining input (the loop never reads the
accumulators). -/
theorem scanFrom_clean_accum {m : CommandMap} {esc : Str} (hwf : MapWF m) :
    ∀ (n : Nat) (r : Str), r.length ≤ n →
      ∀ (clean : Str) (found : List FoundCommand),
      (scanFrom m esc r clean found).1 = clean ++ (scanFrom m esc r [] []).1 := by
  intro n
  induction n with
  | zero =>
    intro r hr clean found
    have : r = [] := List.eq_nil_of_length_eq_zero (Nat.le_zero.mp hr)
    subst this
    simp [scanFrom_nil]
  | succ g ih =>
    intro r hr clean found
    rcases r with _ | ⟨c, rest⟩
    · simp [scanFrom_nil]
    · have hrest : rest.length ≤ g := by
        simpa using hr
      rcases hes : (if esc.isPrefixOf (c :: rest) then
          findCommandMatch m ((c :: rest).drop esc.length)
        else none) with _ | mc
      · rcases hfm : findCommandMatch m (c :: rest) with _ | mc
        · rw [scanFrom_lit hes hfm clean found, scanFrom_lit hes hfm [] []]
          rw [ih rest hrest (clean ++ [c]) found, ih rest hrest ([] ++ [c]) []]
          simp
        · have hne : mc.cmdStr ≠ [] := findCommandMatch_nonempty hwf hfm
          have hk : 1 ≤ mc.cmdStr.length :=
            Nat.one_le_iff_ne_zero.mpr
              (by simpa [List.length_eq_zero] using hne)
          have hlen : ((c :: rest).drop mc.cmdStr.length).length ≤ g := by
            rw [List.length_drop]; simp only [List.length_cons]; omega
          rw [scanFrom_cmd hwf hes hfm clean found, scanFrom_cmd hwf hes hfm [] []]
          rw [ih _ hlen (clean ++ mc.cmdStr) _, ih _ hlen ([] ++ mc.cmdStr) _]
          simp
      · have hpre : esc.isPrefixOf (c :: rest) = true := by
          by_cases hp : esc.isPrefixOf (c :: rest)
          · exact hp
          · rw [if_neg hp] at hes; cases hes
        have hm : findCommandMatch m ((c :: rest).drop esc.length) = some mc := by
          rwa [if_pos hpre] at hes
        have hne : mc.cmdStr ≠ [] := findCommandMatch_nonempty hwf hm
        have hk : 1 ≤ mc.cmdStr.length :=
          Nat.one_le_iff_ne_zero.mpr (by simpa [List.length_eq_zero] using hne)
        have hlen : ((c :: rest).drop (esc.length + mc.cmdStr.length)).length ≤ g := by
          rw [List.length_drop]; simp only [List.length_cons]; omega
        rw [scanFrom_esc hwf hpre hm clean found, scanFrom_esc hwf hpre hm [] []]
        rw [ih _ hlen (clean ++ mc.cmdStr) _, ih _ hlen ([] ++ mc.cmdStr) _]
        simp

/-- Occurrence output of the scan: the accumulator is a prefix and the
new occurrences are those of the from-scratch scan shifted by the
length of the clean accumulator. -/
theorem scanFrom_found_accum {m : CommandMap} {esc : Str} (hwf : MapWF m) :
    ∀ (n : Nat) (r : Str), r.length ≤ n →
      ∀ (clean : Str) (found : List FoundCommand),
      (scanFrom m esc r clean found).2 =
        found ++ (scanFrom m esc r [] []).2.map (shiftFound clean.length) := by
  intro n
  induction n with
  | zero =>
    intro r hr clean found
    have : r = [] := List.eq_nil_of_length_eq_zero (Nat.le_zero.mp hr)
    subst this
    simp [scanFrom_nil]
  | succ g ih =>
    intro r hr clean found
    rcases r with _ | ⟨c, rest⟩
    · simp [scanFrom_nil]
    · have hrest : rest.length ≤ g := by simpa using hr
      rcases hes : (if esc.isPrefixOf (c :: rest) then
          findCommandMatch m ((c :: rest).drop esc.length)
        else none) with _ | mc
      · rcases hfm : findCommandMatch m (c :: rest) with _ | mc
        · rw [scanFrom_lit hes hfm clean found, scanFrom_lit hes hfm [] []]
          rw [ih rest hrest (clean ++ [c]) found, ih rest hrest ([] ++ [c]) []]
          simp [List.map_map, shiftFound, Nat.add_assoc, Nat.add_comm,
            Nat.add_left_comm]
        · have hne : mc.cmdStr ≠ [] := findCommandMatch_nonempty hwf hfm
          have hk : 1 ≤ mc.cmdStr.length :=
            Nat.one_le_iff_ne_zero.mpr
              (by simpa [List.length_eq_zero] using hne)
          have hlen : ((c :: rest).drop mc.cmdStr.length).length ≤ g := by
            rw [List.length_drop]; simp only [List.length_cons]; omega
          rw [scanFrom_cmd hwf hes hfm clean found, scanFrom_cmd hwf hes hfm [] []]
          rw [ih _ hlen (clean ++ mc.cmdStr) _, ih _ hlen ([] ++ mc.cmdStr) _]
          simp [List.map_map, shiftFound, Nat.add_assoc, Nat.add_comm,
            Nat.add_left_comm]
      · have hpre : esc.isPrefixOf (c :: rest) = true := by
          by_cases hp : esc.isPrefixOf (c :: rest)
          · exact hp
          · rw [if_neg hp] at hes; cases hes
        have hm : findCommandMatch m ((c :: rest).drop esc.length) = some mc := by
          rwa [if_pos hpre] at hes
        have hne : mc.cmdStr ≠ [] := findCommandMatch_nonempty hwf hm
        have hk : 1 ≤ mc.cmdStr.length :=
          Nat.one_le_iff_ne_zero.mpr (by simpa [List.length_eq_zero] using hne)
        have hlen : ((c :: rest).drop (esc.length + mc.cmdStr.length)).length ≤ g := by
          rw [List.length_drop]; simp only [List.length_cons]; omega
        rw [scanFrom_esc hwf hpre hm clean found, scanFrom_esc hwf hpre hm [] []]
        rw [ih _ hlen (clean ++ mc.cmdStr) _, ih _ hlen ([] ++ mc.cmdStr) _]
        simp [List.map_map, shiftFound, Nat.add_assoc, Nat.add_comm,
          Nat.add_left_comm]

/-- Every occurrence output by the scan is either inherited from the
accumulator or originates from a `findCommandMatch` result. -/
theorem scanFrom_found_src {m : CommandMap} {esc : Str} (hwf : MapWF m) :
    ∀ (n : Nat) (r : Str), r.length ≤ n →
      ∀ (clean : Str) (found : List FoundCommand) (fc : FoundCommand),
      fc ∈ (scanFrom m esc r clean found).2 →
      fc ∈ found ∨ ∃ s mc, findCommandMatch m s = some mc ∧
        fc.cmdDef = mc.cmdDef ∧ fc.cmdStr = mc.cmdStr := by
  intro n
  induction n with
  | zero =>
    intro r hr clean found fc hmem
    have : r = [] := List.eq_nil_of_length_eq_zero (Nat.le_zero.mp hr)
    subst this
    rw [scanFrom_nil] at hmem
    exact Or.inl hmem
  | succ g ih =>
    intro r hr clean found fc hmem
    rcases r with _ | ⟨c, rest⟩
    · rw [scanFrom_nil] at hmem
      exact Or.inl hmem
    · have hrest : rest.length ≤ g := by simpa using hr
      rcases hes : (if esc.isPrefixOf (c :: rest) then
          findCommandMatch m ((c :: rest).drop esc.length)
        else none) with _ | mc
      · rcases hfm : findCommandMatch m (c :: rest) with _ | mc
        · rw [scanFrom_lit hes hfm clean found] at hmem
          exact ih rest hrest _ _ fc hmem
        · have hne : mc.cmdStr ≠ [] := findCommandMatch_nonempty hwf hfm
          have hk : 1 ≤ mc.cmdStr.length :=
            Nat.one_le_iff_ne_zero.mpr
              (by simpa [List.length_eq_zero] using hne)
          have hlen : ((c :: rest).drop mc.cmdStr.length).length ≤ g := by
            rw [List.length_drop]; simp only [List.length_cons]; omega
          rw [scanFrom_cmd hwf hes hfm clean found] at hmem
          rcases ih _ hlen _ _ fc hmem with hacc | hsrc
          · rcases List.mem_append.mp hacc with hfd | hnew
            · exact Or.inl hfd
            · rcases List.mem_singleton.mp hnew with rfl
              exact Or.inr ⟨c :: rest, mc, hfm, rfl, rfl⟩
          · exact Or.inr hsrc
      · have hpre : esc.isPrefixOf (c :: rest) = true := by
          by_cases hp : esc.isPrefixOf (c :: rest)
          · exact hp
          · rw [if_neg hp] at hes; cases hes
        have hm : findCommandMatch m ((c :: rest).drop esc.length) = some mc := by
          rwa [if_pos hpre] at hes
        have hne : mc.cmdStr ≠ [] := findCommandMatch_nonempty hwf hm
        have hk : 1 ≤ mc.cmdStr.length :=
          Nat.one_le_iff_ne_zero.mpr (by simpa [List.length_eq_zero] using hne)
        have hlen : ((c :: rest).drop (esc.length + mc.cmdStr.length)).length ≤ g := by
          rw [List.length_drop]; simp only [List.length_cons]; omega
        rw [scanFrom_esc hwf hpre hm clean found] at hmem
        exact ih _ hlen _ _ fc hmem

/-- If at no position of the remaining input the escape marker is
followed by a trigger match, the scan copies the input verbatim. -/
theorem scanFrom_clean_id {m : CommandMap} {esc : Str} (hwf : MapWF m) :
    ∀ (n : Nat) (r : Str), r.length ≤ n →
      (∀ j : Nat, ¬(esc.isPrefixOf (r.drop j) = true ∧
        (findCommandMatch m (r.drop (j + esc.length))).isSome = true)) →
      ∀ (clean : Str) (found : List FoundCommand),
      (scanFrom m esc r clean found).1 = clean ++ r := by
  intro n
  induction n with
  | zero =>
    intro r hr _ clean found
    have : r = [] := List.eq_nil_of_length_eq_zero (Nat.le_zero.mp hr)
    subst this
    simp [scanFrom_nil]
  | succ g ih =>
    intro r hr hno clean found
    rcases r with _ | ⟨c, rest⟩
    · simp [scanFrom_nil]
    · have hrest : rest.length ≤ g := by simpa using hr
      rcases hes : (if esc.isPrefixOf (c :: rest) then
          findCommandMatch m ((c :: rest).drop esc.length)
        else none) with _ | mc
      · rcases hfm : findCommandMatch m (c :: rest) with _ | mc
        · rw [scanFrom_lit hes hfm clean found]
          have hno' : ∀ j : Nat, ¬(esc.isPrefixOf (rest.drop j) = true ∧
              (findCommandMatch m (rest.drop (j + esc.length))).isSome = true) := by
            intro j
            have := hno (j + 1)
            simpa [Nat.add_right_comm] using this
          rw [ih rest hrest hno' (clean ++ [c]) found]
          simp
        · have hne : mc.cmdStr ≠ [] := findCommandMatch_nonempty hwf hfm
          have hk : 1 ≤ mc.cmdStr.length :=
            Nat.one_le_iff_ne_zero.mpr
              (by simpa [List.length_eq_zero] using hne)
          have hlen : ((c :: rest).drop mc.cmdStr.length).length ≤ g := by
            rw [List.length_drop]; simp only [List.length_cons]; omega
          rw [scanFrom_cmd hwf hes hfm clean found]
          have hno' : ∀ j : Nat,
              ¬(esc.isPrefixOf (((c :: rest).drop mc.cmdStr.length).drop j) = true ∧
                (findCommandMatch m
                  (((c :: rest).drop mc.cmdStr.length).drop (j + esc.length))).isSome
                    = true) := by
            intro j
            have := hno (j + mc.cmdStr.length)
            simpa [List.drop_drop, Nat.add_assoc, Nat.add_comm, Nat.add_left_comm]
              using this
          rw [ih _ hlen hno' (clean ++ mc.cmdStr) _]
          obtain ⟨u, hu⟩ := findCommandMatch_prefix hfm
          have hdrop : (c :: rest).drop mc.cmdStr.length = u := by
            rw [← hu, List.drop_left]
          rw [hdrop, ← hu]
          simp
      · exfalso
        have hpre : esc.isPrefixOf (c :: rest) = true := by
          by_cases hp : esc.isPrefixOf (c :: rest)
          · exact hp
          · rw [if_neg hp] at hes; cases hes
        have hm : findCommandMatch m ((c :: rest).drop esc.length) = some mc := by
          rwa [if_pos hpre] at hes
        refine hno 0 ⟨?_, ?_⟩
        · rw [List.drop_zero]; exact hpre
        · rw [Nat.zero_add, hm]; rfl

/-- Boolean escape-pair check implies the pointwise property used by
`scanFrom_clean_id`. -/
theorem noEscapePairs_spec {m : CommandMap} {esc input : Str}
    (h : noEscapePairs m esc input = true) :
    ∀ j : Nat, ¬(esc.isPrefixOf (input.drop j) = true ∧
      (findCommandMatch m (input.drop (j + esc.length))).isSome = true) := by
  intro j
  by_cases hj : j < input.length + 1
  · have hx := List.all_eq_true.mp h j (List.mem_range.mpr hj)
    rintro ⟨h1, h2⟩
    rw [h1, h2] at hx
    simp at hx
  · rintro ⟨h1, h2⟩
    have hdrop : input.drop j = [] := by
      apply List.drop_eq_nil_of_le
      omega
    rcases hesc : esc with _ | ⟨e, es⟩
    · rw [hesc] at h2
      rw [show j + ([] : Str).length = j by simp, hdrop] at h2
      simp [findCommandMatch] at h2
    · rw [hdrop, hesc] at h1
      simp [List.isPrefixOf] at h1

/-- Over a list sorted longest first, `find?` returns a match of maximal
length among all entries satisfying the predicate. -/
theorem find?_sorted_cmdLenGe_maximal :
    ∀ (l : List MappedCommand), List.Sorted cmdLenGe l →
      ∀ (p : MappedCommand → Bool) (mc : MappedCommand), l.find? p = some mc →
      ∀ x ∈ l, p x = true → x.cmdStr.length ≤ mc.cmdStr.length := by
  intro l
  induction l with
  | nil => intro _ p mc h; cases h
  | cons y ys ih =>
    intro hs p mc h x hx hpx
    rcases List.sorted_cons.mp hs with ⟨hy, hys⟩
    by_cases hpy : p y = true
    · rw [List.find?_cons_of_pos _ hpy] at h
      cases h
      rcases List.mem_cons.mp hx with rfl | hx'
      · exact Nat.le_refl _
      · exact hy x hx'
    · rw [List.find?_cons_of_neg _ (by simpa using hpy)] at h
      rcases List.mem_cons.mp hx with rfl | hx'
      · exact absurd hpx hpy
      · exact ih hys p mc h x hx' hpx

/-- Characterization of the classification loop: the sourced accumulator
collects the sourced occurrences in order, the prefix slot captures
the first prefix-classified occurrence at clean index 0. -/
theorem resolveLoop_eq (clean : Str) :
    ∀ (found : List FoundCommand) (sourced : List ResolvedCommand)
      (pfx : Option ResolvedCommand),
      resolveLoop clean found sourced pfx =
        (sourced ++ (found.filter isSourcedB).map (toResolved clean),
          pfx.or ((found.find? isPfxAtZeroB).map (toResolved clean))) := by
  intro found
  induction found with
  | nil => intro sourced pfx; simp [resolveLoop]
  | cons fc rest ih =>
    intro sourced pfx
    by_cases h1 : fc.cmdDef.parserCommand.type = "prefix" ∧
        fc.indexInCleanInput = 0 ∧ pfx = none
    · obtain ⟨ht, hi, hp⟩ := h1
      subst hp
      rw [show resolveLoop clean (fc :: rest) sourced none =
          resolveLoop clean rest sourced (some (toResolved clean fc)) from by
        simp only [resolveLoop]
        rw [if_pos (by exact ⟨ht, hi, by simp⟩)]]
      rw [ih]
      have hsrc : isSourcedB fc = false := by
        simp [isSourcedB, ht]
      have hpf : isPfxAtZeroB fc = true := by
        simp [isPfxAtZeroB, ht, hi]
      rw [List.filter_cons_of_neg (by simp [hsrc]),
        List.find?_cons_of_pos _ hpf]
      simp [Option.or]
    · by_cases h2 : fc.cmdDef.parserCommand.type = "sourced"
      · rw [show resolveLoop clean (fc :: rest) sourced pfx =
            resolveLoop clean rest (sourced ++ [toResolved clean fc]) pfx from by
          simp only [resolveLoop]
          rw [if_neg h1, if_pos h2]]
        rw [ih]
        have hsrc : isSourcedB fc = true := by simp [isSourcedB, h2]
        have hpf : isPfxAtZeroB fc = false := by
          simp [isPfxAtZeroB, h2]
        rw [List.filter_cons_of_pos (by simp [hsrc]),
          List.find?_cons_of_neg _ (by simp [hpf])]
        simp [List.append_assoc]
      · rw [show resolveLoop clean (fc :: rest) sourced pfx =
            resolveLoop clean rest sourced pfx from by
          simp only [resolveLoop]
          rw [if_neg h1, if_neg h2]]
        rw [ih]
        have hsrc : isSourcedB fc = false := by simp [isSourcedB, h2]
        rw [List.filter_cons_of_neg (by simp [hsrc])]
        rcases pfx with _ | r
        · have hnp : ¬(fc.cmdDef.parserCommand.type = "prefix" ∧
              fc.indexInCleanInput = 0) := fun hc => h1 ⟨hc.1, hc.2, rfl⟩
          have hpf : isPfxAtZeroB fc = false := by
            rw [Bool.eq_false_iff]
            intro hb
            rcases Bool.and_eq_true_iff.mp hb with ⟨hx, hy⟩
            exact hnp ⟨eq_of_beq hx, by simpa using hy⟩
          rw [List.find?_cons_of_neg _ (by simp [hpf])]
        · simp [Option.or]

/-- Closed form of `resolveCommandPrecedence`: the sourced occurrences,
stably sorted ascending by clean-input index, followed by the first
prefix-classified occurrence at index 0, if any. -/
theorem resolveCommandPrecedence_eq (found : List FoundCommand) (clean : Str) :
    resolveCommandPrecedence found clean =
      List.insertionSort idxLe ((found.filter isSourcedB).map (toResolved clean))
        ++ ((found.find? isPfxAtZeroB).map (toResolved clean)).toList := by
  unfold resolveCommandPrecedence
  rw [resolveLoop_eq]
  simp [Option.or]

/-- Every resolved command originates from a raw occurrence. -/
theorem mem_resolveCommandPrecedence {found : List FoundCommand} {clean : Str}
    {rc : ResolvedCommand} (h : rc ∈ resolveCommandPrecedence found clean) :
    ∃ fc ∈ found, rc = toResolved clean fc := by
  rw [resolveCommandPrecedence_eq] at h
  rcases List.mem_append.mp h with hs | hp
  · rcases List.mem_map.mp ((List.mem_insertionSort idxLe).mp hs) with ⟨fc, hfc, rfl⟩
    exact ⟨fc, List.mem_of_mem_filter hfc, rfl⟩
  · rcases hf : found.find? isPfxAtZeroB with _ | fc <;> rw [hf] at hp
    · cases hp
    · rcases List.mem_singleton.mp (by simpa using hp) with rfl
      exact ⟨fc, List.mem_of_find?_eq_some hf, rfl⟩

/-- The classification of every resolved command is `prefix` or
`sourced`; `none`-classified occurrences are dropped. -/
theorem resolveCommandPrecedence_classified {found : List FoundCommand}
    {clean : Str} {rc : ResolvedCommand}
    (h : rc ∈ resolveCommandPrecedence found clean) :
    rc.cmdDef.parserCommand.type = "prefix" ∨
      rc.cmdDef.parserCommand.type = "sourced" := by
  rw [resolveCommandPrecedence_eq] at h
  rcases List.mem_append.mp h with hs | hp
  · rcases List.mem_map.mp ((List.mem_insertionSort idxLe).mp hs) with ⟨fc, hfc, rfl⟩
    have := List.of_mem_filter hfc
    exact Or.inr (by simpa [isSourcedB] using this)
  · rcases hf : found.find? isPfxAtZeroB with _ | fc <;> rw [hf] at hp
    · cases hp
    · rcases List.mem_singleton.mp (by simpa using hp) with rfl
      have hprop := List.find?_some hf
      have : fc.cmdDef.parserCommand.type = "prefix" ∧ fc.indexInCleanInput = 0 := by
        simpa [isPfxAtZeroB] using hprop
      exact Or.inl (by simpa [toResolved] using this.1)

/-- The walk over an exhausted queue reports no validation. -/
theorem findFirstValidCommand_nil (reg : HandlerRegistry) (w : World)
    (s : Option AnySuggestion) (l : Option WorkspaceLeaf) :
    findFirstValidCommand reg [] w s l = some (false, w) := rfl

/-- One unfolding step of the validation walk. -/
theorem findFirstValidCommand_cons (reg : HandlerRegistry)
    (rc : ResolvedCommand) (rest : List ResolvedCommand) (w : World)
    (s : Option AnySuggestion) (l : Option WorkspaceLeaf) :
    findFirstValidCommand reg (rc :: rest) w s l =
      (match reg.getHandler rc.cmdDef.mode with
      | none => findFirstValidCommand reg rest w s l
      | some handler =>
        match handler.validateCommand (stageOpts rc w.inputInfo)
            rc.indexInCleanInput rc.filterText s l with
        | (none, _) => none
        | (some parsedCmd, info2) =>
          if parsedCmd.isValidated then
            some (true, resetSourcedHandlers
              (if rc.cmdDef.parserCommand.type = "sourced" then [handler.id]
                else [])
              { w with inputInfo := info2 })
          else findFirstValidCommand reg rest { w with inputInfo := info2 } s l) :=
  rfl

/-- Under a total handler set the walk never faults. -/
theorem findFirstValidCommand_isSome {reg : HandlerRegistry}
    (htot : HandlersTotal reg) :
    ∀ (q : List ResolvedCommand) (w : World) (s : Option AnySuggestion)
      (l : Option WorkspaceLeaf),
      (findFirstValidCommand reg q w s l).isSome := by
  intro q
  induction q with
  | nil => intro w s l; rw [findFirstValidCommand_nil]; rfl
  | cons rc rest ih =>
    intro w s l
    rw [findFirstValidCommand_cons]
    rcases hg : reg.getHandler rc.cmdDef.mode with _ | handler
    · exact ih w s l
    · dsimp only
      rcases hv : handler.validateCommand (stageOpts rc w.inputInfo)
          rc.indexInCleanInput rc.filterText s l with ⟨vr, info2⟩
      rcases vr with _ | pc
      · have hcontra := htot rc.cmdDef.mode handler hg (stageOpts rc w.inputInfo)
          rc.indexInCleanInput rc.filterText s l
        rw [hv] at hcontra
        simp at hcontra
      · dsimp only
        by_cases hval : pc.isValidated = true
        · rw [if_pos hval]; rfl
        · rw [if_neg hval]; exact ih _ s l

/-- A successful walk returns the world of some queue entry whose handler
exists, with the session mode set to that entry's mode (by the handler
contract) and no sourced context belonging to any other handler. -/
theorem findFirstValidCommand_success {reg : HandlerRegistry}
    (hmode : ModeContract reg) :
    ∀ (q : List ResolvedCommand) (w : World) (s : Option AnySuggestion)
      (l : Option WorkspaceLeaf) (w2 : World),
      findFirstValidCommand reg q w s l = some (true, w2) →
      ∃ rc ∈ q, ∃ h, reg.getHandler rc.cmdDef.mode = some h ∧
        w2.inputInfo.mode = rc.cmdDef.mode ∧
        ∀ x ∈ w2.sourcedContexts, x = h.id := by
  intro q
  induction q with
  | nil =>
    intro w s l w2 h
    rw [findFirstValidCommand_nil] at h
    simp at h
  | cons rc rest ih =>
    intro w s l w2 h
    rw [findFirstValidCommand_cons] at h
    rcases hg : reg.getHandler rc.cmdDef.mode with _ | handler
    · rw [hg] at h
      dsimp only at h
      rcases ih _ _ _ _ h with ⟨rc', hrc', hrest⟩
      exact ⟨rc', List.mem_cons_of_mem _ hrc', hrest⟩
    · rw [hg] at h
      dsimp only at h
      rcases hv : handler.validateCommand (stageOpts rc w.inputInfo)
          rc.indexInCleanInput rc.filterText s l with ⟨vr, info2⟩
      rw [hv] at h
      rcases vr with _ | pc
      · dsimp only at h; cases h
      · dsimp only at h
        by_cases hval : pc.isValidated = true
        · rw [if_pos hval] at h
          simp only [Option.some.injEq, Prod.mk.injEq, true_and] at h
          subst h
          refine ⟨rc, List.mem_cons_self rc rest, handler, hg, ?_, ?_⟩
          · have := hmode rc.cmdDef.mode handler hg (stageOpts rc w.inputInfo)
              rc.indexInCleanInput rc.filterText s l pc info2 hv hval
            simpa [resetSourcedHandlers] using this
          · intro x hx
            simp only [resetSourcedHandlers, List.mem_filter] at hx
            rcases hx with ⟨-, hcont⟩
            by_cases hs : rc.cmdDef.parserCommand.type = "sourced"
            · rw [if_pos hs] at hcont
              simpa using hcont
            · rw [if_neg hs] at hcont
              simp at hcont
        · rw [if_neg hval] at h
          rcases ih _ _ _ _ h with ⟨rc', hrc', hrest⟩
          exact ⟨rc', List.mem_cons_of_mem _ hrc', hrest⟩

/-- Entries after a validated command are never evaluated: extending the
queue past the winner cannot change the result. -/
theorem findFirstValidCommand_append {reg : HandlerRegistry} :
    ∀ (q post : List ResolvedCommand) (w : World) (s : Option AnySuggestion)
      (l : Option WorkspaceLeaf) (w2 : World),
      findFirstValidCommand reg q w s l = some (true, w2) →
      findFirstValidCommand reg (q ++ post) w s l = some (true, w2) := by
  intro q
  induction q with
  | nil =>
    intro post w s l w2 h
    rw [findFirstValidCommand_nil] at h
    simp at h
  | cons rc rest ih =>
    intro post w s l w2 h
    rw [findFirstValidCommand_cons] at h
    rw [List.cons_append, findFirstValidCommand_cons]
    rcases hg : reg.getHandler rc.cmdDef.mode with _ | handler
    · rw [hg] at h
      dsimp only at h ⊢
      exact ih post _ _ _ _ h
    · rw [hg] at h
      dsimp only at h ⊢
      rcases hv : handler.validateCommand (stageOpts rc w.inputInfo)
          rc.indexInCleanInput rc.filterText s l with ⟨vr, info2⟩
      rw [hv] at h
      rcases vr with _ | pc
      · dsimp only at h; cases h
      · dsimp only at h ⊢
        by_cases hval : pc.isValidated = true
        · rw [if_pos hval] at h ⊢; exact h
        · rw [if_neg hval] at h ⊢; exact ih post _ _ _ _ h

/-- Unfolding of `parseInputForMode` through the staged session state. -/
theorem parseInputForMode_eq (p : InputParser) (w : World)
    (s : Option AnySuggestion) (l : Option WorkspaceLeaf) :
    p.parseInputForMode w s l =
      (match findFirstValidCommand p.handlerRegistry
          (p.parse w.inputInfo.inputText).resolvedCommands (stageClean p w) s l with
      | none => none
      | some (true, w2) => some w2
      | some (false, w2) =>
        some (resetSourcedHandlers []
          { w2 with inputInfo := { w2.inputInfo with mode := Mode.standard } })) :=
  rfl

/-- The always-validating registry conforms to the handler interface. -/
theorem okRegistry_total : HandlersTotal okRegistry := by
  intro md h hm info i ft s l
  cases hm
  rfl

/-- The always-validating registry satisfies the mode contract. -/
theorem okRegistry_modeContract : ModeContract okRegistry := by
  intro md h hm info i ft s l r info2 hv _
  cases hm
  cases hv
  rfl

/-- C1: for every raw input, session state and handler set (conforming to
the interface and the mode contract), `parseInputForMode` walks the
precedence-ordered queue and stops at the first command whose handler
validates: the session mode becomes that command's mode and every
other sourced handler is reset; entries past the winner are never
evaluated; when the queue is exhausted without a validated command,
all sourced handlers are reset and the mode falls back to Standard. -/
theorem c1_first_validated_command_wins (p : InputParser) (w : World)
    (s : Option AnySuggestion) (l : Option WorkspaceLeaf)
    (htot : HandlersTotal p.handlerRegistry)
    (hmode : ModeContract p.handlerRegistry) :
    WalkConclusion p w s l := by
  refine ⟨?_, ?_, ?_, ?_⟩
  · intro w2 hff
    refine ⟨resetSourcedHandlers []
      { w2 with inputInfo := { w2.inputInfo with mode := Mode.standard } },
      ?_, rfl, ?_⟩
    · rw [parseInputForMode_eq, hff]
    · simp [resetSourcedHandlers]
  · intro w2 hff
    refine ⟨?_, ?_⟩
    · rw [parseInputForMode_eq, hff]
    · exact findFirstValidCommand_success hmode _ _ _ _ _ hff
  · exact findFirstValidCommand_isSome htot _ _ _ _
  · intro q post w1 w2 hff
    exact findFirstValidCommand_append q post _ _ _ _ hff

/-- Witness for C1 at a concrete parser, registry and input. -/
theorem c1_witness :
    HandlersTotal pOk.handlerRegistry ∧ ModeContract pOk.handlerRegistry ∧
      WalkConclusion pOk (mkWorld "@x") none none :=
  ⟨okRegistry_total, okRegistry_modeContract,
    c1_first_validated_command_wins pOk (mkWorld "@x") none none
      okRegistry_total okRegistry_modeContract⟩

/-- C2: wherever at least one configured trigger is a literal prefix of
the remaining input, the scanner matches exactly the longest such
trigger (buckets are keyed by first character and scanned longest
first); concretely, with overlapping sourced triggers `a` and `aa`,
input `aab` yields the single occurrence `aa` with filter text `b`. -/
theorem c2_longest_trigger_wins :
    (∀ (defs : List CommandDefinition) (s : Str) (d : CommandDefinition),
      d ∈ defs → cmdStrOf d ≠ [] → (cmdStrOf d).isPrefixOf s = true →
      ∃ mc, findCommandMatch (buildCommandMap defs) s = some mc ∧
        mc.cmdStr.isPrefixOf s = true ∧
        (∃ d' ∈ defs, mc.cmdDef = d' ∧ mc.cmdStr = cmdStrOf d') ∧
        ∀ d' ∈ defs, (cmdStrOf d').isPrefixOf s = true →
          (cmdStrOf d').length ≤ mc.cmdStr.length) ∧
    pOverlap.parse (strLit "aab") =
      { cleanInput := strLit "aab"
        resolvedCommands := [{ cmdDef := mkSourced Mode.editorList "aa"
                               cmdStr := strLit "aa"
                               filterText := strLit "b"
                               indexInCleanInput := 0 }] } := by
  constructor
  · intro defs s d hd hne hpre
    rcases hstr : cmdStrOf d with _ | ⟨c, t⟩
    · exact absurd hstr hne
    have hpfx : (c :: t) <+: s := by
      apply List.isPrefixOf_iff_prefix.mp
      rw [← hstr]
      exact hpre
    obtain ⟨u, hu⟩ := hpfx
    have hs : s = c :: (t ++ u) := by rw [← hu]; rfl
    subst hs
    obtain ⟨bucket, hbl, hmem⟩ := build_bucket_complete hd hstr
    have hsat : (fun mc => mc.cmdStr.isPrefixOf (c :: (t ++ u)))
        (⟨d, c :: t⟩ : MappedCommand) = true := by
      rw [← hstr]
      exact hpre
    have hfind : (bucket.find? (fun mc => mc.cmdStr.isPrefixOf (c :: (t ++ u)))).isSome := by
      rw [List.find?_isSome]
      exact ⟨_, hmem, hsat⟩
    obtain ⟨mc, hmc⟩ := Option.isSome_iff_exists.mp hfind
    have hfcm : findCommandMatch (buildCommandMap defs) (c :: (t ++ u)) = some mc := by
      simp only [findCommandMatch]
      rw [hbl]
      exact hmc
    refine ⟨mc, hfcm, findCommandMatch_isPrefixOf hfcm, ?_, ?_⟩
    · rcases findCommandMatch_build_src hfcm with ⟨d', hd', hmceq, _⟩
      exact ⟨d', hd', by rw [hmceq], by rw [hmceq]⟩
    · intro d' hd' hp'
      rcases h' : cmdStrOf d' with _ | ⟨c', t'⟩
      · simp
      · have hpfx' : (c' :: t') <+: (c :: (t ++ u)) := by
          apply List.isPrefixOf_iff_prefix.mp
          rw [← h']
          exact hp'
        obtain ⟨u', hu'⟩ := hpfx'
        have hc' : c' = c := by
          have := congrArg (List.head? ·) hu'
          simpa using this
        rw [hc'] at h'
        obtain ⟨bucket2, hbl2, hmem2⟩ := build_bucket_complete hd' h'
        have hbeq : bucket2 = bucket := Option.some.inj (hbl2.symm.trans hbl)
        rw [hbeq] at hmem2
        have hsort := build_bucket_sorted hbl
        have hsat' : (fun mc => mc.cmdStr.isPrefixOf (c :: (t ++ u)))
            (⟨d', c :: t'⟩ : MappedCommand) = true := by
          rw [← h']
          exact hp'
        have hmax := find?_sorted_cmdLenGe_maximal bucket hsort _ mc hmc
          ⟨d', c :: t'⟩ hmem2 hsat'
        rw [hc']
        simpa using hmax
  · decide

/-- Witness for C2 at the overlapping-trigger configuration. -/
theorem c2_witness :
    ((mkSourced Mode.editorList "aa") ∈
        [mkSourced Mode.symbolList "a", mkSourced Mode.editorList "aa"] ∧
      cmdStrOf (mkSourced Mode.editorList "aa") ≠ [] ∧
      (cmdStrOf (mkSourced Mode.editorList "aa")).isPrefixOf (strLit "aab") = true) ∧
    (∃ mc, findCommandMatch (buildCommandMap [mkSourced Mode.symbolList "a",
          mkSourced Mode.editorList "aa"]) (strLit "aab") = some mc ∧
      mc.cmdStr.isPrefixOf (strLit "aab") = true ∧
      (∃ d' ∈ [mkSourced Mode.symbolList "a", mkSourced Mode.editorList "aa"],
        mc.cmdDef = d' ∧ mc.cmdStr = cmdStrOf d') ∧
      ∀ d' ∈ [mkSourced Mode.symbolList "a", mkSourced Mode.editorList "aa"],
        (cmdStrOf d').isPrefixOf (strLit "aab") = true →
        (cmdStrOf d').length ≤ mc.cmdStr.length) :=
  ⟨⟨by decide, by decide, by decide⟩,
    c2_longest_trigger_wins.1
      [mkSourced Mode.symbolList "a", mkSourced Mode.editorList "aa"]
      (strLit "aab") (mkSourced Mode.editorList "aa")
      (by decide) (by decide) (by decide)⟩

/-- C3: whenever the escape marker is immediately followed by a valid
trigger during the scan, the trigger is appended to the clean input,
no occurrence is recorded, and the cursor advances past marker plus
trigger; consequently, stripping that one layer leaves the clean
output equal to the trigger followed by the scan of the remainder (and
equal to the input with exactly that escape marker removed whenever
the remainder scans verbatim), with no occurrence at that position. -/
theorem c3_escape_strips_one_layer (m : CommandMap) (esc rest : Str)
    (mc : MappedCommand) (clean : Str) (found : List FoundCommand)
    (hwf : MapWF m) (hm : findCommandMatch m rest = some mc) :
    scanFrom m esc (esc ++ rest) clean found =
      scanFrom m esc (rest.drop mc.cmdStr.length) (clean ++ mc.cmdStr) found ∧
    (scan m esc (esc ++ rest)).1 =
      mc.cmdStr ++ (scan m esc (rest.drop mc.cmdStr.length)).1 ∧
    (∀ fc ∈ (scan m esc (esc ++ rest)).2,
      mc.cmdStr.length ≤ fc.indexInCleanInput) ∧
    ((scan m esc (rest.drop mc.cmdStr.length)).1 = rest.drop mc.cmdStr.length →
      (scan m esc (esc ++ rest)).1 = rest) := by
  have hpre : esc.isPrefixOf (esc ++ rest) = true :=
    List.isPrefixOf_iff_prefix.mpr ⟨rest, rfl⟩
  have hdropm : (esc ++ rest).drop esc.length = rest := List.drop_left esc rest
  have hm' : findCommandMatch m ((esc ++ rest).drop esc.length) = some mc := by
    rw [hdropm]
    exact hm
  have hdrop2 : (esc ++ rest).drop (esc.length + mc.cmdStr.length) =
      rest.drop mc.cmdStr.length := by
    rw [← List.drop_drop, hdropm]
  have hstep : ∀ (cl : Str) (fd : List FoundCommand),
      scanFrom m esc (esc ++ rest) cl fd =
        scanFrom m esc (rest.drop mc.cmdStr.length) (cl ++ mc.cmdStr) fd := by
    intro cl fd
    have := scanFrom_esc hwf hpre hm' cl fd
    rwa [hdrop2] at this
  have hrest_eq : mc.cmdStr ++ rest.drop mc.cmdStr.length = rest := by
    obtain ⟨u, hu⟩ := findCommandMatch_prefix hm
    rw [← hu, List.drop_left]
  refine ⟨hstep clean found, ?_, ?_, ?_⟩
  · show (scanFrom m esc (esc ++ rest) [] []).1 = _
    rw [hstep [] []]
    have := @scanFrom_clean_accum m esc hwf (rest.drop mc.cmdStr.length).length
      (rest.drop mc.cmdStr.length) (Nat.le_refl _) ([] ++ mc.cmdStr) []
    simpa using this
  · intro fc hfc
    show _ ≤ fc.indexInCleanInput
    have hmem : fc ∈ (scanFrom m esc (esc ++ rest) [] []).2 := hfc
    rw [hstep [] []] at hmem
    have := @scanFrom_found_accum m esc hwf (rest.drop mc.cmdStr.length).length
      (rest.drop mc.cmdStr.length) (Nat.le_refl _) ([] ++ mc.cmdStr) []
    rw [this] at hmem
    simp only [List.nil_append, List.mem_map] at hmem
    rcases hmem with ⟨fc', _, rfl⟩
    simp [shiftFound]
  · intro hid
    show (scanFrom m esc (esc ++ rest) [] []).1 = rest
    rw [hstep [] []]
    have := @scanFrom_clean_accum m esc hwf (rest.drop mc.cmdStr.length).length
      (rest.drop mc.cmdStr.length) (Nat.le_refl _) ([] ++ mc.cmdStr) []
    rw [this]
    have hid' : (scanFrom m esc (rest.drop mc.cmdStr.length) [] []).1 =
        rest.drop mc.cmdStr.length := hid
    rw [hid']
    simpa using hrest_eq

/-- Witness for C3 at escape `!`, trigger `@`, input `!@foo`. -/
theorem c3_witness :
    MapWF pEsc.commandMap ∧
    findCommandMatch pEsc.commandMap (strLit "@foo") =
      some ⟨mkSourced Mode.symbolList "@", strLit "@"⟩ ∧
    (scan pEsc.commandMap (strLit "!") (strLit "!" ++ strLit "@foo")).1 =
      strLit "@" ++ (scan pEsc.commandMap (strLit "!")
        ((strLit "@foo").drop (strLit "@").length)).1 :=
  ⟨mapWF_build _, by decide,
    (c3_escape_strips_one_layer pEsc.commandMap (strLit "!") (strLit "@foo")
      ⟨mkSourced Mode.symbolList "@", strLit "@"⟩ [] [] (mapWF_build _)
      (by decide)).2.1⟩

/-- C4: `resolveCommandPrecedence` retains every sourced occurrence
regardless of position, retains at most the first prefix-classified
occurrence whose clean index is exactly zero, and returns the sourced
occurrences sorted ascending by clean index followed by that single
prefix candidate last. -/
theorem c4_precedence_order (found : List FoundCommand) (clean : Str) :
    resolveCommandPrecedence found clean =
      List.insertionSort idxLe ((found.filter isSourcedB).map (toResolved clean))
        ++ ((found.find? isPfxAtZeroB).map (toResolved clean)).toList ∧
    List.Sorted idxLe (List.insertionSort idxLe
      ((found.filter isSourcedB).map (toResolved clean))) ∧
    (∀ fc ∈ found, isSourcedB fc = true →
      toResolved clean fc ∈ resolveCommandPrecedence found clean) ∧
    (∀ rc ∈ ((found.find? isPfxAtZeroB).map (toResolved clean)).toList,
      rc.indexInCleanInput = 0 ∧ rc.cmdDef.parserCommand.type = "prefix") := by
  refine ⟨resolveCommandPrecedence_eq found clean, List.sorted_insertionSort _ _,
    ?_, ?_⟩
  · intro fc hfc hsrc
    rw [resolveCommandPrecedence_eq]
    apply List.mem_append_left
    apply (List.mem_insertionSort idxLe).mpr
    exact List.mem_map.mpr ⟨fc, List.mem_filter.mpr ⟨hfc, hsrc⟩, rfl⟩
  · intro rc hrc
    rcases hf : found.find? isPfxAtZeroB with _ | fc <;> rw [hf] at hrc
    · cases hrc
    · rcases List.mem_singleton.mp (by simpa using hrc) with rfl
      have hprop := List.find?_some hf
      have hc : fc.cmdDef.parserCommand.type = "prefix" ∧
          fc.indexInCleanInput = 0 := by
        simpa [isPfxAtZeroB] using hprop
      exact ⟨by simpa [toResolved] using hc.2, by simpa [toResolved] using hc.1⟩

/-- Witness for C4 with one sourced occurrence away from position 0. -/
theorem c4_witness :
    isSourcedB (⟨mkSourced Mode.symbolList "@", strLit "@", 3⟩ : FoundCommand)
        = true ∧
    toResolved (strLit "abc@t")
        (⟨mkSourced Mode.symbolList "@", strLit "@", 3⟩ : FoundCommand) ∈
      resolveCommandPrecedence
        [⟨mkSourced Mode.symbolList "@", strLit "@", 3⟩] (strLit "abc@t") :=
  ⟨by decide,
    (c4_precedence_order [⟨mkSourced Mode.symbolList "@", strLit "@", 3⟩]
        (strLit "abc@t")).2.2.1
      ⟨mkSourced Mode.symbolList "@", strLit "@", 3⟩ (by decide) (by decide)⟩

/-- C5: the filter text of every resolved command is the clean input from
right after the occurrence's trigger through the end of the clean
input — never truncated at a later occurrence — and is therefore
always a suffix of the clean input. -/
theorem c5_filter_text_is_suffix (found : List FoundCommand) (clean : Str)
    (rc : ResolvedCommand) (h : rc ∈ resolveCommandPrecedence found clean) :
    rc.filterText = clean.drop (rc.indexInCleanInput + rc.cmdStr.length) ∧
    List.IsSuffix rc.filterText clean := by
  rcases mem_resolveCommandPrecedence h with ⟨fc, _, rfl⟩
  exact ⟨rfl, List.drop_suffix _ _⟩

/-- Witness for C5 at a concrete mid-string occurrence. -/
theorem c5_witness :
    ((⟨mkSourced Mode.symbolList "@", strLit "@", strLit "bc", 1⟩ :
        ResolvedCommand) ∈
      resolveCommandPrecedence
        [⟨mkSourced Mode.symbolList "@", strLit "@", 1⟩] (strLit "a@bc")) ∧
    ((⟨mkSourced Mode.symbolList "@", strLit "@", strLit "bc", 1⟩ :
        ResolvedCommand).filterText =
      (strLit "a@bc").drop (1 + (strLit "@").length) ∧
    List.IsSuffix (⟨mkSourced Mode.symbolList "@", strLit "@", strLit "bc", 1⟩ :
        ResolvedCommand).filterText (strLit "a@bc")) :=
  ⟨by decide,
    c5_filter_text_is_suffix [⟨mkSourced Mode.symbolList "@", strLit "@", 1⟩]
      (strLit "a@bc")
      ⟨mkSourced Mode.symbolList "@", strLit "@", strLit "bc", 1⟩ (by decide)⟩

/-- C6 counterexample: with escape `!` and sourced trigger `@`, the input
`!!@` cleans to `!@` (literal `!` followed by the escaped trigger),
and re-parsing `!@` strips the recreated escape pair down to `@`, so
the clean output of a parse is not a fixed point of cleaning. -/
theorem c6_counterexample :
    (pEsc.parse (strLit "!!@")).cleanInput = strLit "!@" ∧
    (pEsc.parse ((pEsc.parse (strLit "!!@")).cleanInput)).cleanInput =
      strLit "@" ∧
    ¬((pEsc.parse ((pEsc.parse (strLit "!!@")).cleanInput)).cleanInput =
      (pEsc.parse (strLit "!!@")).cleanInput) := by decide

/-- C6 amended: the clean output is a fixed point of cleaning whenever it
contains no position where the escape marker is immediately followed
by a trigger match; in general literal text can recreate such a pair
(see the counterexample) and re-parsing strips it again. -/
theorem c6_clean_fixed_point_without_pairs (p : InputParser) (x : Str)
    (hwf : MapWF p.commandMap)
    (hno : noEscapePairs p.commandMap p.escapeCmdChar
      ((p.parse x).cleanInput) = true) :
    (p.parse ((p.parse x).cleanInput)).cleanInput = (p.parse x).cleanInput := by
  have hspec := noEscapePairs_spec hno
  show (scan p.commandMap p.escapeCmdChar ((p.parse x).cleanInput)).1 = _
  have := @scanFrom_clean_id p.commandMap p.escapeCmdChar hwf
    ((p.parse x).cleanInput).length ((p.parse x).cleanInput)
    (Nat.le_refl _) hspec [] []
  simpa using this

/-- Witness for the amended C6 at input `!@foo`. -/
theorem c6_witness :
    MapWF pEsc.commandMap ∧
    noEscapePairs pEsc.commandMap pEsc.escapeCmdChar
      ((pEsc.parse (strLit "!@foo")).cleanInput) = true ∧
    (pEsc.parse ((pEsc.parse (strLit "!@foo")).cleanInput)).cleanInput =
      (pEsc.parse (strLit "!@foo")).cleanInput :=
  ⟨mapWF_build _, by decide,
    c6_clean_fixed_point_without_pairs pEsc (strLit "!@foo") (mapWF_build _)
      (by decide)⟩

/-- C7 counterexample: when a configured trigger coincides with the
escape marker `!`, the input `!` — an escape marker not followed by
any valid trigger — is not copied through as literal text: the marker
is consumed as a trigger occurrence of its own. -/
theorem c7_counterexample :
    findCommandMatch pBang.commandMap ((strLit "!").drop (strLit "!").length)
      = none ∧
    (pBang.parse (strLit "!")).resolvedCommands =
      [⟨mkSourced Mode.symbolList "!", strLit "!", [], 0⟩] ∧
    (pBang.parse (strLit "!")).resolvedCommands ≠ [] := by decide

/-- When no trigger begins with any character of the escape marker, the
scan copies a partial escape marker (any suffix of the marker sitting
before a further marker) through as literal text, character by
character. -/
theorem scanFrom_escape_run {m : CommandMap} {esc : Str}
    (Hb : ∀ c ∈ esc, lookupBuckets m c = none) (X : Str) :
    ∀ (d : Str), (∃ k, d = esc.drop k) →
      ∀ (clean : Str) (found : List FoundCommand),
      scanFrom m esc (d ++ (esc ++ X)) clean found =
        scanFrom m esc (esc ++ X) (clean ++ d) found := by
  have hnone : ∀ (s : Str) (c : Char), s.head? = some c → c ∈ esc →
      findCommandMatch m s = none := by
    intro s c hh hc
    rcases s with _ | ⟨c0, s0⟩
    · simp [findCommandMatch]
    · have hc0 : c0 = c := by simpa using hh
      subst hc0
      simp only [findCommandMatch]
      rw [Hb c0 hc]
  intro d
  induction d with
  | nil => intro _ clean found; simp
  | cons e et ihd =>
    rintro ⟨k, hk⟩ clean found
    have hsub : ∀ c ∈ e :: et, c ∈ esc := by
      intro c hc
      rw [hk] at hc
      exact List.drop_subset k esc hc
    have he : e ∈ esc := hsub e (List.mem_cons_self e et)
    have hlen : (e :: et).length ≤ esc.length := by
      rw [hk, List.length_drop]
      omega
    have hdecomp : ((e :: et) ++ (esc ++ X)).drop esc.length =
        esc.drop (esc.length - (e :: et).length) ++ X := by
      rw [List.drop_append_eq_append_drop, List.drop_eq_nil_of_le hlen,
        List.drop_append_eq_append_drop]
      have h0 : esc.length - (e :: et).length - esc.length = 0 := by omega
      rw [h0, List.drop_zero]
      simp
    have hj : esc.length - (e :: et).length < esc.length := by
      simp only [List.length_cons] at hlen ⊢
      omega
    have hne2 : esc.drop (esc.length - (e :: et).length) ≠ [] := by
      intro hh
      have := congrArg List.length hh
      rw [List.length_drop] at this
      simp at this
      omega
    obtain ⟨c0, cs, hcs⟩ := List.exists_cons_of_ne_nil hne2
    have hc0 : c0 ∈ esc := by
      have hmem : c0 ∈ esc.drop (esc.length - (e :: et).length) := by
        rw [hcs]
        exact List.mem_cons_self _ _
      exact List.drop_subset _ _ hmem
    have hescmatch :
        findCommandMatch m (((e :: et) ++ (esc ++ X)).drop esc.length) = none := by
      apply hnone _ c0 _ hc0
      rw [hdecomp, hcs]
      rfl
    have hnesc : (if esc.isPrefixOf ((e :: et) ++ (esc ++ X)) then
        findCommandMatch m (((e :: et) ++ (esc ++ X)).drop esc.length)
      else none) = none := by
      by_cases hp : esc.isPrefixOf ((e :: et) ++ (esc ++ X))
      · rw [if_pos hp]; exact hescmatch
      · rw [if_neg hp]
    have hfm : findCommandMatch m ((e :: et) ++ (esc ++ X)) = none :=
      hnone _ e rfl he
    have het : et = esc.drop (k + 1) := by
      have h1 : esc.drop (k + 1) = (esc.drop k).drop 1 :=
        (List.drop_drop 1 k esc).symm
      rw [h1, ← hk]
      rfl
    calc scanFrom m esc ((e :: et) ++ (esc ++ X)) clean found
        = scanFrom m esc (et ++ (esc ++ X)) (clean ++ [e]) found :=
          scanFrom_lit hnesc hfm clean found
      _ = scanFrom m esc (esc ++ X) ((clean ++ [e]) ++ et) found :=
          ihd ⟨k + 1, het⟩ (clean ++ [e]) found
      _ = scanFrom m esc (esc ++ X) (clean ++ (e :: et)) found := by
          simp

/-- C7 amended: an escape marker that is neither followed by a valid
trigger nor itself the start of a trigger match is copied through as
literal text character by character; and only one layer of escaping is
recognized: after a double escape marker (with no trigger overlapping
the marker), the first marker passes through literally, the second
marker plus trigger is consumed atomically, and no occurrence is
recorded in the escaped region. -/
theorem c7_unmatched_escape_literal_one_layer :
    (∀ (m : CommandMap) (esc : Str) (c : Char) (rest clean : Str)
      (found : List FoundCommand),
      (esc.isPrefixOf (c :: rest) = true →
        findCommandMatch m ((c :: rest).drop esc.length) = none) →
      findCommandMatch m (c :: rest) = none →
      scanFrom m esc (c :: rest) clean found =
        scanFrom m esc rest (clean ++ [c]) found) ∧
    (∀ (m : CommandMap) (esc X : Str) (mc : MappedCommand), MapWF m →
      (∀ c ∈ esc, lookupBuckets m c = none) →
      findCommandMatch m X = some mc →
      (scan m esc (esc ++ (esc ++ X))).1 =
        (esc ++ mc.cmdStr) ++ (scan m esc (X.drop mc.cmdStr.length)).1 ∧
      ∀ fc ∈ (scan m esc (esc ++ (esc ++ X))).2,
        (esc ++ mc.cmdStr).length ≤ fc.indexInCleanInput) := by
  constructor
  · intro m esc c rest clean found hesc hfm
    have hnesc : (if esc.isPrefixOf (c :: rest) then
        findCommandMatch m ((c :: rest).drop esc.length)
      else none) = none := by
      by_cases hp : esc.isPrefixOf (c :: rest)
      · rw [if_pos hp]; exact hesc hp
      · rw [if_neg hp]
    exact scanFrom_lit hnesc hfm clean found
  · intro m esc X mc hwf Hb hm
    have hpre : esc.isPrefixOf (esc ++ X) = true :=
      List.isPrefixOf_iff_prefix.mpr ⟨X, rfl⟩
    have hdropm : (esc ++ X).drop esc.length = X := List.drop_left esc X
    have hm' : findCommandMatch m ((esc ++ X).drop esc.length) = some mc := by
      rw [hdropm]; exact hm
    have hdrop2 : (esc ++ X).drop (esc.length + mc.cmdStr.length) =
        X.drop mc.cmdStr.length := by
      rw [← List.drop_drop, hdropm]
    have hrun := scanFrom_escape_run Hb X esc
      ⟨0, (List.drop_zero esc).symm⟩ [] []
    have hstep := scanFrom_esc hwf hpre hm' ([] ++ esc) []
    rw [hdrop2] at hstep
    have hchain : scanFrom m esc (esc ++ (esc ++ X)) [] [] =
        scanFrom m esc (X.drop mc.cmdStr.length) (([] ++ esc) ++ mc.cmdStr) [] :=
      hrun.trans hstep
    constructor
    · show (scanFrom m esc (esc ++ (esc ++ X)) [] []).1 = _
      rw [hchain]
      have := @scanFrom_clean_accum m esc hwf (X.drop mc.cmdStr.length).length
        (X.drop mc.cmdStr.length) (Nat.le_refl _) (([] ++ esc) ++ mc.cmdStr) []
      rw [this]
      simp [scan, scanFrom]
    · intro fc hfc
      have hmem : fc ∈ (scanFrom m esc (esc ++ (esc ++ X)) [] []).2 := hfc
      rw [hchain] at hmem
      have := @scanFrom_found_accum m esc hwf (X.drop mc.cmdStr.length).length
        (X.drop mc.cmdStr.length) (Nat.le_refl _) (([] ++ esc) ++ mc.cmdStr) []
      rw [this] at hmem
      simp only [List.nil_append, List.mem_map] at hmem
      rcases hmem with ⟨fc', _, rfl⟩
      simp [shiftFound]

/-- Witness for the amended C7 with escape `!`, trigger `@`, double
marker input `!!@z`. -/
theorem c7_witness :
    MapWF pEsc.commandMap ∧
    (∀ c ∈ strLit "!", lookupBuckets pEsc.commandMap c = none) ∧
    findCommandMatch pEsc.commandMap (strLit "@z") =
      some ⟨mkSourced Mode.symbolList "@", strLit "@"⟩ ∧
    (scan pEsc.commandMap (strLit "!")
        (strLit "!" ++ (strLit "!" ++ strLit "@z"))).1 =
      (strLit "!" ++ strLit "@") ++ (scan pEsc.commandMap (strLit "!")
        ((strLit "@z").drop (strLit "@").length)).1 :=
  ⟨mapWF_build _, by decide, by decide,
    (c7_unmatched_escape_literal_one_layer.2 pEsc.commandMap (strLit "!")
      (strLit "@z") ⟨mkSourced Mode.symbolList "@", strLit "@"⟩
      (mapWF_build _) (by decide) (by decide)).1⟩

/-- C8 counterexample: a handler returning a null validation result makes
`parseInputForMode` fault (the member access on the null result
throws), rather than being treated as "not validated": the call does
not complete with a resolved mode. -/
theorem c8_counterexample :
    pNull.parseInputForMode (mkWorld "@x") none none = none ∧
    (pNull.parse (strLit "@x")).resolvedCommands ≠ [] := by
  constructor
  · rfl
  · decide

/-- C8 amended: a null/undefined validation result is not guarded
against — it propagates as a fault that aborts the walk — while a
non-null result with `isValidated = false` lets the walk continue,
and under a handler set that never returns null the pass always
completes with some resolved session state. -/
theorem c8_null_faults_nonnull_continues :
    (∀ (reg : HandlerRegistry) (rc : ResolvedCommand)
      (rest : List ResolvedCommand) (w : World) (s : Option AnySuggestion)
      (l : Option WorkspaceLeaf) (handler : Handler) (info2 : InputInfo),
      reg.getHandler rc.cmdDef.mode = some handler →
      handler.validateCommand (stageOpts rc w.inputInfo) rc.indexInCleanInput
        rc.filterText s l = (none, info2) →
      findFirstValidCommand reg (rc :: rest) w s l = none) ∧
    (∀ (reg : HandlerRegistry) (rc : ResolvedCommand)
      (rest : List ResolvedCommand) (w : World) (s : Option AnySuggestion)
      (l : Option WorkspaceLeaf) (handler : Handler) (pc : ValidationResult)
      (info2 : InputInfo),
      reg.getHandler rc.cmdDef.mode = some handler →
      handler.validateCommand (stageOpts rc w.inputInfo) rc.indexInCleanInput
        rc.filterText s l = (some pc, info2) →
      pc.isValidated = false →
      findFirstValidCommand reg (rc :: rest) w s l =
        findFirstValidCommand reg rest { w with inputInfo := info2 } s l) ∧
    (∀ (p : InputParser) (w : World) (s : Option AnySuggestion)
      (l : Option WorkspaceLeaf), HandlersTotal p.handlerRegistry →
      ∃ w', p.parseInputForMode w s l = some w') := by
  refine ⟨?_, ?_, ?_⟩
  · intro reg rc rest w s l handler info2 hg hv
    rw [findFirstValidCommand_cons, hg]
    dsimp only
    rw [hv]
  · intro reg rc rest w s l handler pc info2 hg hv hval
    rw [findFirstValidCommand_cons, hg]
    dsimp only
    rw [hv]
    dsimp only
    rw [if_neg (by simp [hval])]
  · intro p w s l htot
    have hsome := findFirstValidCommand_isSome htot
      (p.parse w.inputInfo.inputText).resolvedCommands (stageClean p w) s l
    rw [parseInputForMode_eq]
    rcases hff : findFirstValidCommand p.handlerRegistry
        (p.parse w.inputInfo.inputText).resolvedCommands (stageClean p w) s l
      with _ | ⟨b, w2⟩
    · rw [hff] at hsome
      simp at hsome
    · rcases b with _ | _
      · exact ⟨_, rfl⟩
      · exact ⟨w2, rfl⟩

/-- Witness for the amended C8 at the always-validating registry. -/
theorem c8_witness :
    HandlersTotal pOk.handlerRegistry ∧
    (∃ w', pOk.parseInputForMode (mkWorld "@x") none none = some w') :=
  ⟨okRegistry_total,
    c8_null_faults_nonnull_continues.2.2 pOk (mkWorld "@x") none none
      okRegistry_total⟩

/-- C9 counterexample: a `none`-classified command does produce a match
during scanning — `buildCommandMap` indexes every nonempty trigger
regardless of classification — and its span even shadows the sourced
trigger `b` that would otherwise match at position 1; the occurrence
is only dropped later by precedence resolution. -/
theorem c9_counterexample :
    (scan pShadow.commandMap pShadow.escapeCmdChar (strLit "ab")).2 =
      [⟨mkNone Mode.standard "ab", strLit "ab", 0⟩] ∧
    (mkNone Mode.standard "ab").parserCommand.type = "none" ∧
    (pShadow.parse (strLit "ab")).resolvedCommands = [] := by decide

/-- C9 amended: `none`-classified commands do participate in scanning
(they can match and consume their span), but precedence resolution
drops them, so no command whose classification is `none` ever appears
in the resolved command list returned by `parse`. -/
theorem c9_none_never_resolved (p : InputParser) (input : Str)
    (rc : ResolvedCommand) (h : rc ∈ (p.parse input).resolvedCommands) :
    rc.cmdDef.parserCommand.type ≠ "none" := by
  have hcls := resolveCommandPrecedence_classified
    (show rc ∈ resolveCommandPrecedence
      (scan p.commandMap p.escapeCmdChar input).2
      (scan p.commandMap p.escapeCmdChar input).1 from h)
  rcases hcls with h1 | h1 <;> simp [h1]

/-- Witness for the amended C9 at a resolved sourced command. -/
theorem c9_witness :
    ((⟨mkSourced Mode.symbolList "@", strLit "@", strLit "x", 0⟩ :
        ResolvedCommand) ∈ (pEsc.parse (strLit "@x")).resolvedCommands) ∧
    (⟨mkSourced Mode.symbolList "@", strLit "@", strLit "x", 0⟩ :
        ResolvedCommand).cmdDef.parserCommand.type ≠ "none" :=
  ⟨by decide,
    c9_none_never_resolved pEsc (strLit "@x")
      ⟨mkSourced Mode.symbolList "@", strLit "@", strLit "x", 0⟩ (by decide)⟩

/-- C10: zero-length trigger strings (a null `getCommandStr` counts as
empty) are excluded from the first-character index, so the scanner
never records an occurrence for such a command and every trigger ever
matched is nonempty. -/
theorem c10_empty_triggers_never_match (defs : List CommandDefinition)
    (esc input : Str) :
    (∀ c bucket, lookupBuckets (buildCommandMap defs) c = some bucket →
      ∀ mc ∈ bucket, mc.cmdStr ≠ []) ∧
    (∀ fc ∈ (scan (buildCommandMap defs) esc input).2,
      fc.cmdStr ≠ [] ∧ ∀ d ∈ defs, cmdStrOf d = [] → fc.cmdDef ≠ d) := by
  refine ⟨mapWF_build defs, ?_⟩
  intro fc hfc
  have hsrc := scanFrom_found_src (mapWF_build defs) input.length input
    (Nat.le_refl _) [] [] fc hfc
  rcases hsrc with hin | ⟨s, mc, hmatch, hdef, hstr⟩
  · cases hin
  · rcases findCommandMatch_build_src hmatch with ⟨d', hd', hmc, hne⟩
    constructor
    · rw [hstr, hmc]
      exact hne
    · intro d _ hempty heq
      have hdd : d = d' := by
        rw [← heq, hdef, hmc]
      rw [hdd] at hempty
      exact hne hempty

/-- Witness for C10: alongside a command with a null trigger string, the
only occurrence the scanner records carries the nonempty trigger `@`
and never the null-trigger definition. -/
theorem c10_witness :
    ((⟨mkSourced Mode.symbolList "@", strLit "@", 0⟩ : FoundCommand) ∈
      (scan (buildCommandMap [⟨Mode.standard, ⟨none, "none", false⟩⟩,
        mkSourced Mode.symbolList "@"]) (strLit "!") (strLit "@x")).2) ∧
    cmdStrOf ⟨Mode.standard, ⟨none, "none", false⟩⟩ = [] ∧
    (⟨mkSourced Mode.symbolList "@", strLit "@", 0⟩ : FoundCommand).cmdStr
      ≠ [] ∧
    (⟨mkSourced Mode.symbolList "@", strLit "@", 0⟩ : FoundCommand).cmdDef ≠
      ⟨Mode.standard, ⟨none, "none", false⟩⟩ := by
  refine ⟨by decide, by decide, ?_, ?_⟩
  · exact ((c10_empty_triggers_never_match
      [⟨Mode.standard, ⟨none, "none", false⟩⟩, mkSourced Mode.symbolList "@"]
      (strLit "!") (strLit "@x")).2
      ⟨mkSourced Mode.symbolList "@", strLit "@", 0⟩ (by decide)).1
  · exact ((c10_empty_triggers_never_match
      [⟨Mode.standard, ⟨none, "none", false⟩⟩, mkSourced Mode.symbolList "@"]
      (strLit "!") (strLit "@x")).2
      ⟨mkSourced Mode.symbolList "@", strLit "@", 0⟩ (by decide)).2
      ⟨Mode.standard, ⟨none, "none", false⟩⟩ (by decide) (by decide)
